import Mathlib

/-!
Shallow embedding of the pipeline-network graph engine (`script.js`):
the `UnionFind` disjoint-set forest, the `Graph` class (vertex placement
with minimum separation, undirected weighted edge set, Kruskal MST), and
the state-relevant part of the `PipelineApp` controller.

Conventions of the embedding:
* JavaScript numbers used as coordinates are modelled by `ℚ` (exact
  arithmetic; the source only ever compares distances and rounds square
  roots, both of which are expressed exactly below).
* A JavaScript array read `a[i]` that can yield `undefined` is modelled
  by `Option`; `none` stands for `undefined`.
* Mutation is modelled by explicit state passing: each method returns its
  result together with the updated object.
* The recursion in `UnionFind.find` is modelled with explicit fuel
  `parent.length + 1`; lemmas below show the fuel is never exhausted on
  well-formed states, so the fuel value is unobservable there.
-/

namespace PipelineNet

/-- JS array read `l[i]` where `i` itself may be `undefined` (`none`).
Out-of-range reads and reads of stored holes yield `undefined`. -/
def jget (l : List (Option ℕ)) (x : Option ℕ) : Option ℕ :=
  match x with
  | none => none
  | some i => (l.get? i).join

/-- JS array write `l[i] = v`: in range it updates in place, past the end
it extends the array with holes (which read back as `undefined`). -/
def jset (l : List (Option ℕ)) (i : ℕ) (v : Option ℕ) : List (Option ℕ) :=
  if i < l.length then l.set i v
  else l ++ List.replicate (i - l.length) none ++ [v]

/-- State of the `UnionFind` class: the `parent` and `rank` arrays.
`rank` entries are naturals (the source only ever stores 0 and increments). -/
structure UF where
  parent : List (Option ℕ)
  rank : List ℕ
  deriving DecidableEq, Repr

/-- `constructor(size)`: `parent = [0, …, size-1]`, `rank = [0, …, 0]`. -/
def ufInit (n : ℕ) : UF :=
  ⟨(List.range n).map some, List.replicate n 0⟩

/-- Write `this.parent[x] = v` for a key `x` that may be `undefined`.
A write at an `undefined` key (a non-index property write in JS, reachable
only through out-of-range arguments, which no well-formed caller performs)
is modelled as a no-op. -/
def setP (uf : UF) (x : Option ℕ) (v : Option ℕ) : UF :=
  match x with
  | none => uf
  | some i => { uf with parent := jset uf.parent i v }

/-- `this.rank[x]` for a root value `x` that may be `undefined`. -/
def getRank (uf : UF) (x : Option ℕ) : Option ℕ :=
  match x with
  | none => none
  | some i => uf.rank.get? i

/-- `this.rank[x]++` for an in-range index; at an `undefined` key (again a
non-index property, unreachable from well-formed callers) it is a no-op. -/
def incRank (uf : UF) (x : Option ℕ) : UF :=
  match x with
  | none => uf
  | some i => { uf with rank := uf.rank.set i ((uf.rank.getD i 0) + 1) }

/-- JS `<` on values that may be `undefined`: any comparison with
`undefined` is `false`. -/
def jlt (a b : Option ℕ) : Bool :=
  match a, b with
  | some a, some b => a < b
  | _, _ => false

/-- `find(x)`: `return this.parent[x] === x ? x : (this.parent[x] = this.find(this.parent[x]))`.
Fuel-indexed; the recursion in the source stops when the looked-up parent
equals the argument. The assignment stores the recursive result and also
returns it. -/
def findAux : ℕ → UF → Option ℕ → Option ℕ × UF
  | 0, uf, _ => (none, uf)
  | fuel + 1, uf, x =>
    let px := jget uf.parent x
    if px = x then (x, uf)
    else
      let r := findAux fuel uf px
      (r.1, setP r.2 x r.1)

/-- `find` with enough fuel for any well-formed state (path length is at
most `parent.length`; see `findAux_spec`). -/
def find (uf : UF) (x : Option ℕ) : Option ℕ × UF :=
  findAux (uf.parent.length + 1) uf x

/-- `union(x, y)`: find both roots; equal roots are a no-op returning
`false`; otherwise link by rank — the lower-rank root is attached below
the higher-rank one, and on a tie `y`'s root goes below `x`'s root whose
rank is incremented — and return `true`. -/
def union (uf : UF) (x y : ℕ) : Bool × UF :=
  let fx := find uf (some x)
  let rootX := fx.1
  let fy := find fx.2 (some y)
  let rootY := fy.1
  let uf2 := fy.2
  if rootX = rootY then (false, uf2)
  else if jlt (getRank uf2 rootX) (getRank uf2 rootY) then
    (true, setP uf2 rootX rootY)
  else if jlt (getRank uf2 rootY) (getRank uf2 rootX) then
    (true, setP uf2 rootY rootX)
  else
    (true, incRank (setP uf2 rootY rootX) rootX)

/-- A site placed on the canvas (`{ x, y }`). -/
structure Vertex where
  x : ℚ
  y : ℚ
  deriving DecidableEq, Repr

/-- A stored edge `{ v1, v2, weight }` with canonical endpoint order and
the weight computed at creation time. -/
structure Edge where
  v1 : ℕ
  v2 : ℕ
  weight : ℕ
  deriving DecidableEq, Repr

/-- State of the `Graph` class. -/
structure Graph where
  vertices : List Vertex
  edges : List Edge
  deriving DecidableEq, Repr

/-- Newton iteration for the integer square root, with explicit fuel so
that it reduces in the kernel; `isqrt_eq_sqrt` below shows it computes
`Nat.sqrt`. -/
def isqrtIter : ℕ → ℕ → ℕ → ℕ
  | 0, _, guess => guess
  | fuel + 1, n, guess =>
    let next := (guess + n / guess) / 2
    if next < guess then isqrtIter fuel n next else guess

/-- Integer square root `⌊sqrt n⌋` (kernel-reducible form of `Nat.sqrt`). -/
def isqrt (n : ℕ) : ℕ :=
  if n ≤ 1 then n else isqrtIter n n (n / 2)

/-- `Math.round(Math.sqrt q)` for a nonnegative rational `q`, computed
exactly: `round (sqrt (a/b)) = ⌊(⌊sqrt (4ab)⌋ + b) / (2b)⌋` (round half
up, matching `Math.round`). -/
def roundSqrt (q : ℚ) : ℕ :=
  (isqrt (4 * q.num.toNat * q.den) + q.den) / (2 * q.den)

/-- `addVertex(x, y)`: reject (returning `-1`) when some existing vertex
is strictly closer than `MIN_DISTANCE = 30`; otherwise push the vertex and
return its index. The source compares `Math.sqrt (dx·dx + dy·dy) < 30`,
which for exact arithmetic is `dx·dx + dy·dy < 30·30`. -/
def addVertex (g : Graph) (x y : ℚ) : ℤ × Graph :=
  let tooClose := g.vertices.any fun v =>
    decide ((v.x - x) * (v.x - x) + (v.y - y) * (v.y - y) < 30 * 30)
  if tooClose then (-1, g)
  else ((g.vertices.length : ℤ), { g with vertices := g.vertices ++ [⟨x, y⟩] })

/-- The duplicate test of `addEdge`: an edge with the same endpoints in
either direction already exists. Arguments are the raw (possibly
negative) requested indices. -/
def edgeMatches (e : Edge) (v1 v2 : ℤ) : Bool :=
  ((e.v1 : ℤ) = v1 ∧ (e.v2 : ℤ) = v2) ∨ ((e.v1 : ℤ) = v2 ∧ (e.v2 : ℤ) = v1)

/-- `addEdge(v1, v2)`: reject self-loops and out-of-range indices, then
duplicates, each by returning `false`; otherwise push
`{ v1: min, v2: max, weight: round (euclidean distance) }` and return
`true`. The source's `try`/`catch` (unreachable after the index check) is
mirrored by the defensive `none` branch of the lookups. -/
def addEdge (g : Graph) (v1 v2 : ℤ) : Bool × Graph :=
  if v1 = v2 ∨ v1 < 0 ∨ v2 < 0 ∨ (g.vertices.length : ℤ) ≤ v1 ∨
      (g.vertices.length : ℤ) ≤ v2 then
    (false, g)
  else if g.edges.any (edgeMatches · v1 v2) then
    (false, g)
  else
    match g.vertices.get? v1.toNat, g.vertices.get? v2.toNat with
    | some vx1, some vx2 =>
      let dx := vx1.x - vx2.x
      let dy := vx1.y - vx2.y
      let w := roundSqrt (dx * dx + dy * dy)
      (true, { g with
        edges := g.edges ++ [⟨min v1.toNat v2.toNat, max v1.toNat v2.toNat, w⟩] })
    | _, _ => (false, g)

/-- Stable insertion of an edge in front of the first edge of weight `≥`
its own. -/
def insertEdge (e : Edge) : List Edge → List Edge
  | [] => [e]
  | f :: rest => if e.weight ≤ f.weight then e :: f :: rest else f :: insertEdge e rest

/-- The sort `[...this.edges].sort((a, b) => a.weight - b.weight)`.
ECMAScript's `Array.prototype.sort` is specified to be stable, and a
stable sort by a total preorder has a unique result, realised here by
stable insertion sort. -/
def sortEdges : List Edge → List Edge
  | [] => []
  | e :: rest => insertEdge e (sortEdges rest)

/-- The Kruskal selection loop of `findMST`: walk the sorted edges; when
the two endpoints have distinct roots, union them and keep the edge,
stopping as soon as `k` (edges kept so far) reaches `n - 1`. The two
`find`s of the loop condition and the `union` mutate the forest in source
order. -/
def kruskalAux (n : ℕ) : List Edge → UF → ℕ → List Edge
  | [], _, _ => []
  | e :: rest, uf, k =>
    let f1 := find uf (some e.v1)
    let f2 := find f1.2 (some e.v2)
    if f1.1 ≠ f2.1 then
      let uf3 := (union f2.2 e.v1 e.v2).2
      if k + 1 = n - 1 then [e] else e :: kruskalAux n rest uf3 (k + 1)
    else kruskalAux n rest f2.2 k

/-- `findMST()`: empty for fewer than two vertices, otherwise Kruskal on
the stably sorted edge list with a fresh `UnionFind`. -/
def findMST (g : Graph) : List Edge :=
  if g.vertices.length < 2 then []
  else kruskalAux g.vertices.length (sortEdges g.edges) (ufInit g.vertices.length) 0

/-- Squared distance between a stored vertex and a candidate position,
exactly as the source computes `dx*dx + dy*dy`. -/
def distSq (v : Vertex) (x y : ℚ) : ℚ :=
  (v.x - x) * (v.x - x) + (v.y - y) * (v.y - y)

/-- The validation of `addEdge` that is *not* the duplicate check: the
two endpoints are distinct and both are in `[0, vertex count)`. -/
def validEndpoints (g : Graph) (v1 v2 : ℤ) : Prop :=
  v1 ≠ v2 ∧ 0 ≤ v1 ∧ 0 ≤ v2 ∧ v1 < (g.vertices.length : ℤ) ∧
    v2 < (g.vertices.length : ℤ)

/-- An edge with the requested unordered endpoint pair is already stored. -/
def hasEdge (g : Graph) (v1 v2 : ℤ) : Prop :=
  g.edges.any (edgeMatches · v1 v2) = true

instance (g : Graph) (v1 v2 : ℤ) : Decidable (validEndpoints g v1 v2) := by
  unfold validEndpoints
  infer_instance

instance (g : Graph) (v1 v2 : ℤ) : Decidable (hasEdge g v1 v2) := by
  unfold hasEdge
  infer_instance

/-- Two natural endpoints form the same unordered pair as the stored
edge. -/
def sameUnordered (e : Edge) (a b : ℕ) : Prop :=
  (e.v1 = a ∧ e.v2 = b) ∨ (e.v1 = b ∧ e.v2 = a)

instance (e : Edge) (a b : ℕ) : Decidable (sameUnordered e a b) := by
  unfold sameUnordered
  infer_instance

/-- The edge-set invariant: no self-loops and no two edges with the same
unordered endpoint pair. -/
def EdgeInv (l : List Edge) : Prop :=
  (∀ e ∈ l, e.v1 ≠ e.v2) ∧ l.Pairwise fun e f => ¬sameUnordered f e.v1 e.v2

instance (l : List Edge) : Decidable (EdgeInv l) := by
  unfold EdgeInv
  infer_instance

/-- Run a sequence of `connect` requests through `addEdge`, keeping only
the final graph. -/
def applyConnects (g : Graph) : List (ℤ × ℤ) → Graph
  | [] => g
  | r :: rs => applyConnects (addEdge g r.1 r.2).2 rs

/-- One parent step of the forest, read without mutation (roots and
out-of-range elements step to themselves). -/
def stepUF (uf : UF) (x : ℕ) : ℕ :=
  match jget uf.parent (some x) with
  | some p => p
  | none => x

/-- Iterated parent steps. -/
def iterUF (uf : UF) : ℕ → ℕ → ℕ
  | 0, x => x
  | k + 1, x => iterUF uf k (stepUF uf x)

/-- `x` is a root: its parent entry is itself (the `find` stopping
condition). -/
def isRoot (uf : UF) (x : ℕ) : Prop :=
  jget uf.parent (some x) = some x

instance (uf : UF) (x : ℕ) : Decidable (isRoot uf x) := by
  unfold isRoot
  infer_instance

/-- `r` is the root of `x`'s tree: a root reachable from `x` by parent
steps. -/
def IsRootOf (uf : UF) (x r : ℕ) : Prop :=
  isRoot uf r ∧ ∃ k, iterUF uf k x = r

/-- `x` and `y` lie in the same tree of the forest. -/
def sameSet (uf : UF) (x y : ℕ) : Prop :=
  ∃ r, IsRootOf uf x r ∧ IsRootOf uf y r

/-- Number of roots among `0, …, n-1` (= number of trees). -/
def rootCount (n : ℕ) (uf : UF) : ℕ :=
  ((Finset.range n).filter fun i => isRoot uf i).card

/-- Well-formedness of a `UnionFind` state over `n` elements: array
lengths are `n`, every parent entry is a defined index `< n`, and parent
links admit a strictly decreasing measure (no cycles except root
self-loops). This is the data-model invariant of the forest; every state
the source reaches through in-range operations satisfies it. -/
structure WF (n : ℕ) (uf : UF) : Prop where
  plen : uf.parent.length = n
  rlen : uf.rank.length = n
  inRange : ∀ i, i < n → ∃ j, j < n ∧ jget uf.parent (some i) = some j
  acyc : ∃ d : ℕ → ℕ, ∀ i j, i < n → jget uf.parent (some i) = some j → j ≠ i → d j < d i

/-- Two vertex identifiers are directly linked by an edge of the list. -/
def adjIn (l : List Edge) (a b : ℕ) : Prop :=
  ∃ e ∈ l, (e.v1 = a ∧ e.v2 = b) ∨ (e.v1 = b ∧ e.v2 = a)

/-- Connectivity: reflexive-transitive closure of direct linkage. -/
def Joined (l : List Edge) : ℕ → ℕ → Prop :=
  Relation.ReflTransGen (adjIn l)

/-- The graph on vertices `0, …, n-1` with the given edges is connected. -/
def connectedGraph (n : ℕ) (l : List Edge) : Prop :=
  ∀ a b, a < n → b < n → Joined l a b

/-- The two interaction modes of `PipelineApp`. -/
inductive Mode
  | addBuilding
  | addConnection
  deriving DecidableEq, Repr

/-- The state-relevant fields of `PipelineApp`. Canvas, 2D context,
hovered vertex and last mouse position only affect rendering and are
omitted; `totalCost` mirrors the `totalCost` field (the `#totalCost` DOM
text is derived from it). -/
structure App where
  graph : Graph
  selectedVertex : Option ℕ
  mode : Mode
  mstEdges : List Edge
  totalCost : ℕ
  deriving DecidableEq, Repr

/-- `new PipelineApp()`: fresh graph, no selection, building mode, no
cached MST. -/
def appInit : App := ⟨⟨[], []⟩, none, Mode.addBuilding, [], 0⟩

/-- `findClosestVertex(x, y)` with the default `maxDistance = 40`:
squared-distance scan against each building's base point
`(v.x, v.y + 32/2)`, keeping the strictly closest hit. -/
def findClosestVertex (g : Graph) (x y : ℚ) : Option ℕ :=
  (g.vertices.enum.foldl
    (fun acc p =>
      let baseY := p.2.y + 32 / 2
      let dx := p.2.x - x
      let dy := baseY - y
      let distanceSq := dx * dx + dy * dy
      if distanceSq < acc.1 then (distanceSq, some p.1) else acc)
    ((40 * 40 : ℚ), (none : Option ℕ))).2

/-- `handleCanvasClick(e)`: in building mode insert a vertex (the graph
is unchanged when the insertion is rejected); in connection mode select,
deselect, or — on a second distinct selection without an existing edge —
create the edge and clear the cached MST. -/
def handleCanvasClick (app : App) (x y : ℚ) : App :=
  match app.mode with
  | Mode.addBuilding => { app with graph := (addVertex app.graph x y).2 }
  | Mode.addConnection =>
    match findClosestVertex app.graph x y with
    | none => app
    | some vi =>
      if app.selectedVertex = some vi then { app with selectedVertex := none }
      else
        match app.selectedVertex with
        | none => { app with selectedVertex := some vi }
        | some sv =>
          let existingEdge := app.graph.edges.any fun e =>
            decide ((e.v1 = sv ∧ e.v2 = vi) ∨ (e.v1 = vi ∧ e.v2 = sv))
          if existingEdge then { app with selectedVertex := none }
          else
            let res := addEdge app.graph (sv : ℤ) (vi : ℤ)
            if res.1 then
              { app with graph := res.2, mstEdges := [], selectedVertex := none }
            else { app with graph := res.2, selectedVertex := none }

/-- The `addBuilding` button handler. -/
def clickAddBuilding (app : App) : App :=
  { app with mode := Mode.addBuilding, selectedVertex := none }

/-- The `addConnection` button handler (needs at least two buildings). -/
def clickAddConnection (app : App) : App :=
  if app.graph.vertices.length < 2 then app
  else { app with mode := Mode.addConnection, selectedVertex := none }

/-- The `findMST` button handler: computes and caches the MST and its
summed weight (needs at least two buildings). -/
def clickFindMST (app : App) : App :=
  if app.graph.vertices.length < 2 then app
  else
    let mst := findMST app.graph
    { app with mstEdges := mst, totalCost := (mst.map Edge.weight).sum }

/-- The `reset` button handler. -/
def clickReset (_app : App) : App :=
  ⟨⟨[], []⟩, none, Mode.addBuilding, [], 0⟩

/-- The discrete external requests driving the engine. -/
inductive Event
  | canvasClick (x y : ℚ)
  | addBuildingBtn
  | addConnectionBtn
  | findMSTBtn
  | resetBtn
  deriving DecidableEq, Repr

/-- The engine's step relation: one external request at a time. -/
def step (app : App) : Event → App
  | Event.canvasClick x y => handleCanvasClick app x y
  | Event.addBuildingBtn => clickAddBuilding app
  | Event.addConnectionBtn => clickAddConnection app
  | Event.findMSTBtn => clickFindMST app
  | Event.resetBtn => clickReset app

/-- `isqrtIter` agrees with the iterator of `Nat.sqrt` once the fuel
covers the strictly decreasing guess. -/
theorem isqrtIter_eq (fuel n guess : ℕ) (h : guess ≤ fuel) :
    isqrtIter fuel n guess = Nat.sqrt.iter n guess := by
  induction fuel generalizing guess with
  | zero =>
    rw [Nat.le_zero] at h
    subst h
    rw [Nat.sqrt.iter]
    simp [isqrtIter]
  | succ fuel ih =>
    rw [Nat.sqrt.iter, isqrtIter]
    by_cases hlt : (guess + n / guess) / 2 < guess
    · simp only [hlt, if_true]
      exact ih _ (by omega)
    · simp [hlt]

/-- The fueled Newton iteration computes exactly `Nat.sqrt`. -/
theorem isqrt_eq_sqrt (n : ℕ) : isqrt n = Nat.sqrt n := by
  rw [isqrt, Nat.sqrt]
  by_cases h : n ≤ 1
  · simp [h]
  · simp only [h, if_false]
    exact isqrtIter_eq n n (n / 2) (by omega)

/-- C5: for every vertex set, inserting a vertex at (squared) distance at
least `30²` from every existing vertex succeeds, appending the vertex and
returning its index, while a vertex strictly closer than 30 units to some
existing vertex is rejected with the `TooClose` outcome (`-1`) and the
vertex set is unchanged. Over exact arithmetic
`sqrt d < 30 ↔ d < 30 * 30`, so the squared comparison is the source's
`Math.sqrt(dx*dx + dy*dy) < MIN_DISTANCE` test verbatim. -/
theorem addVertex_separation (g : Graph) (x y : ℚ) :
    ((∀ v ∈ g.vertices, 30 * 30 ≤ distSq v x y) →
      addVertex g x y =
        ((g.vertices.length : ℤ), { g with vertices := g.vertices ++ [⟨x, y⟩] })) ∧
    ((∃ v ∈ g.vertices, distSq v x y < 30 * 30) →
      addVertex g x y = (-1, g)) := by
  constructor
  · intro h
    have hfalse : (g.vertices.any fun v =>
        decide ((v.x - x) * (v.x - x) + (v.y - y) * (v.y - y) < 30 * 30)) = false := by
      simp only [List.any_eq_false, decide_eq_true_eq]
      intro v hv
      exact not_lt.2 (h v hv)
    simp [addVertex, hfalse]
  · rintro ⟨v, hv, hlt⟩
    have htrue : (g.vertices.any fun v =>
        decide ((v.x - x) * (v.x - x) + (v.y - y) * (v.y - y) < 30 * 30)) = true := by
      simp only [List.any_eq_true, decide_eq_true_eq]
      exact ⟨v, hv, hlt⟩
    simp [addVertex, htrue]

/-- Witness for C5 at the boundary: from a single vertex at the origin,
inserting at distance exactly 30 succeeds, and at distance 29.999
(squared distance `899.94001… < 900`) it is rejected. -/
theorem addVertex_separation_witness :
    (∀ v ∈ ([⟨0, 0⟩] : List Vertex), 30 * 30 ≤ distSq v 30 0) ∧
    addVertex ⟨[⟨0, 0⟩], []⟩ 30 0 = (1, ⟨[⟨0, 0⟩, ⟨30, 0⟩], []⟩) ∧
    (∃ v ∈ ([⟨0, 0⟩] : List Vertex), distSq v (29999 / 1000) 0 < 30 * 30) ∧
    addVertex ⟨[⟨0, 0⟩], []⟩ (29999 / 1000) 0 = (-1, ⟨[⟨0, 0⟩], []⟩) := by
  refine ⟨by with_unfolding_all decide, ?_, by with_unfolding_all decide, ?_⟩
  · exact (addVertex_separation ⟨[⟨0, 0⟩], []⟩ 30 0).1 (by with_unfolding_all decide)
  · exact (addVertex_separation ⟨[⟨0, 0⟩], []⟩ (29999 / 1000) 0).2
      (by with_unfolding_all decide)

/-- C10: on an empty vertex set the separation scan is vacuous, so
insertion at any coordinates succeeds and returns identifier 0. -/
theorem addVertex_empty (g : Graph) (x y : ℚ) (h : g.vertices = []) :
    addVertex g x y = (0, { g with vertices := [⟨x, y⟩] }) := by
  simp [addVertex, h]

/-- Witness for C10 at a concrete coordinate pair. -/
theorem addVertex_empty_witness :
    (Graph.vertices ⟨[], []⟩ = []) ∧
    addVertex ⟨[], []⟩ 7 (-3) = (0, ⟨[⟨7, -3⟩], []⟩) := by
  exact ⟨rfl, addVertex_empty ⟨[], []⟩ 7 (-3) rfl⟩

/-- C1: on vertices A=(0,0), B=(10,0), C=(10,10) with edges inserted in
the order A–B, B–C, A–C, the stored weights are 10, 10 and
round(sqrt 200) = 14, and `findMST` returns exactly A–B then B–C,
excluding A–C, with total weight 20. -/
theorem mst_concrete_triangle :
    let g : Graph :=
      (addEdge (addEdge (addEdge ⟨[⟨0, 0⟩, ⟨10, 0⟩, ⟨10, 10⟩], []⟩ 0 1).2 1 2).2 0 2).2
    g.edges = [⟨0, 1, 10⟩, ⟨1, 2, 10⟩, ⟨0, 2, 14⟩] ∧
    findMST g = [⟨0, 1, 10⟩, ⟨1, 2, 10⟩] ∧
    ((findMST g).map Edge.weight).sum = 20 := by
  with_unfolding_all decide

/-- Full behaviour of `addEdge`: failure leaves the graph unchanged,
success is exactly "valid endpoints and no duplicate", and on success the
canonical edge with the rounded Euclidean weight is appended. -/
theorem addEdge_spec (g : Graph) (v1 v2 : ℤ) :
    ((addEdge g v1 v2).1 = false → (addEdge g v1 v2).2 = g) ∧
    ((addEdge g v1 v2).1 = true ↔ validEndpoints g v1 v2 ∧ ¬hasEdge g v1 v2) ∧
    (validEndpoints g v1 v2 → ¬hasEdge g v1 v2 →
      ∃ vx1 vx2, g.vertices.get? v1.toNat = some vx1 ∧
        g.vertices.get? v2.toNat = some vx2 ∧
        addEdge g v1 v2 = (true, { g with edges := g.edges ++
          [⟨min v1.toNat v2.toNat, max v1.toNat v2.toNat,
            roundSqrt ((vx1.x - vx2.x) * (vx1.x - vx2.x) +
              (vx1.y - vx2.y) * (vx1.y - vx2.y))⟩] })) := by
  by_cases hG : v1 = v2 ∨ v1 < 0 ∨ v2 < 0 ∨ (g.vertices.length : ℤ) ≤ v1 ∨
      (g.vertices.length : ℤ) ≤ v2
  · have hval : ¬validEndpoints g v1 v2 := by
      rw [validEndpoints]
      omega
    have heq : addEdge g v1 v2 = (false, g) := by
      simp [addEdge, hG]
    rw [heq]
    exact ⟨fun _ => rfl, ⟨fun h => absurd h (by simp), fun h => absurd h.1 hval⟩,
      fun hv _ => absurd hv hval⟩
  · have hval : validEndpoints g v1 v2 := by
      rw [validEndpoints]
      omega
    by_cases hdup : g.edges.any (edgeMatches · v1 v2)
    · have hdup' : hasEdge g v1 v2 := hdup
      have heq : addEdge g v1 v2 = (false, g) := by
        simp [addEdge, hG, hdup]
      rw [heq]
      exact ⟨fun _ => rfl, ⟨fun h => absurd h (by simp), fun h => absurd hdup' h.2⟩,
        fun _ hnd => absurd hdup' hnd⟩
    · have h1 : v1.toNat < g.vertices.length := by omega
      have h2 : v2.toNat < g.vertices.length := by omega
      have hget1 : g.vertices.get? v1.toNat = some (g.vertices.get ⟨v1.toNat, h1⟩) :=
        List.get?_eq_get h1
      have hget2 : g.vertices.get? v2.toNat = some (g.vertices.get ⟨v2.toNat, h2⟩) :=
        List.get?_eq_get h2
      have heq : addEdge g v1 v2 = (true, { g with edges := g.edges ++
          [⟨min v1.toNat v2.toNat, max v1.toNat v2.toNat,
            roundSqrt (((g.vertices.get ⟨v1.toNat, h1⟩).x - (g.vertices.get ⟨v2.toNat, h2⟩).x) *
                ((g.vertices.get ⟨v1.toNat, h1⟩).x - (g.vertices.get ⟨v2.toNat, h2⟩).x) +
              ((g.vertices.get ⟨v1.toNat, h1⟩).y - (g.vertices.get ⟨v2.toNat, h2⟩).y) *
                ((g.vertices.get ⟨v1.toNat, h1⟩).y - (g.vertices.get ⟨v2.toNat, h2⟩).y))⟩] }) := by
        rw [addEdge]
        simp only [hG, if_false, hdup, Bool.false_eq_true, hget1, hget2]
      rw [heq]
      exact ⟨fun h => absurd h (by simp), ⟨fun _ => ⟨hval, fun h => hdup h⟩, fun _ => rfl⟩,
        fun _ _ => ⟨_, _, hget1, hget2, rfl⟩⟩

/-- Amended C3: `addEdge` returns a bare boolean. Failure (self-loop,
invalid index or duplicate alike) yields `false` with the graph
unchanged, success yields `true` — not the weight — with the new edge
(canonical endpoint order, rounded Euclidean weight) appended; the value
`false` carries no indication of which reason applied. -/
theorem addEdge_characterization (g : Graph) (v1 v2 : ℤ) :
    ((addEdge g v1 v2).1 = false → (addEdge g v1 v2).2 = g) ∧
    ((addEdge g v1 v2).1 = true ↔ validEndpoints g v1 v2 ∧ ¬hasEdge g v1 v2) ∧
    (validEndpoints g v1 v2 → ¬hasEdge g v1 v2 →
      ∃ vx1 vx2, g.vertices.get? v1.toNat = some vx1 ∧
        g.vertices.get? v2.toNat = some vx2 ∧
        addEdge g v1 v2 = (true, { g with edges := g.edges ++
          [⟨min v1.toNat v2.toNat, max v1.toNat v2.toNat,
            roundSqrt ((vx1.x - vx2.x) * (vx1.x - vx2.x) +
              (vx1.y - vx2.y) * (vx1.y - vx2.y))⟩] })) :=
  addEdge_spec g v1 v2

/-- Witness for the amended C3: a successful insertion between vertices 0
and 1 of a two-vertex graph appends the canonical edge of weight 10. -/
theorem addEdge_characterization_witness :
    validEndpoints ⟨[⟨0, 0⟩, ⟨10, 0⟩], []⟩ 0 1 ∧
    ¬hasEdge ⟨[⟨0, 0⟩, ⟨10, 0⟩], []⟩ 0 1 ∧
    ∃ vx1 vx2, List.get? [(⟨0, 0⟩ : Vertex), ⟨10, 0⟩] (Int.toNat 0) = some vx1 ∧
      List.get? [(⟨0, 0⟩ : Vertex), ⟨10, 0⟩] (Int.toNat 1) = some vx2 ∧
      addEdge ⟨[⟨0, 0⟩, ⟨10, 0⟩], []⟩ 0 1 = (true, { Graph.mk [⟨0, 0⟩, ⟨10, 0⟩] [] with
        edges := [] ++ [⟨min (Int.toNat 0) (Int.toNat 1), max (Int.toNat 0) (Int.toNat 1),
          roundSqrt ((vx1.x - vx2.x) * (vx1.x - vx2.x) +
            (vx1.y - vx2.y) * (vx1.y - vx2.y))⟩] }) := by
  refine ⟨by with_unfolding_all decide, by with_unfolding_all decide, ?_⟩
  exact (addEdge_characterization ⟨[⟨0, 0⟩, ⟨10, 0⟩], []⟩ 0 1).2.2
    (by with_unfolding_all decide) (by with_unfolding_all decide)

/-- Counterexample to C3 as stated: the three failure reasons are not
distinguishable by the caller — a self-loop request, an invalid-index
request and a duplicate request all return the very same outcome
`(false, unchanged graph)` — and success returns the boolean `true`, not
the computed weight (which is only stored inside the appended edge). -/
theorem addEdge_failures_indistinguishable :
    let g2 : Graph := ⟨[⟨0, 0⟩, ⟨10, 0⟩], []⟩
    addEdge g2 0 0 = (false, g2) ∧
    addEdge g2 0 5 = (false, g2) ∧
    addEdge g2 0 0 = addEdge g2 0 5 ∧
    addEdge g2 0 1 = (true, ⟨[⟨0, 0⟩, ⟨10, 0⟩], [⟨0, 1, 10⟩]⟩) ∧
    addEdge (addEdge g2 0 1).2 1 0 = (false, (addEdge g2 0 1).2) ∧
    addEdge (addEdge g2 0 1).2 1 0 = addEdge (addEdge g2 0 1).2 0 0 := by
  with_unfolding_all decide

/-- A single `addEdge` preserves the edge-set invariant. -/
theorem addEdge_inv (g : Graph) (a b : ℤ) (h : EdgeInv g.edges) :
    EdgeInv ((addEdge g a b).2).edges := by
  rcases hb : (addEdge g a b).1 with _ | _
  · rw [(addEdge_spec g a b).1 hb]
    exact h
  · obtain ⟨hval, hdup⟩ := (addEdge_spec g a b).2.1.1 hb
    obtain ⟨vx1, vx2, -, -, heq⟩ := (addEdge_spec g a b).2.2 hval hdup
    rw [heq]
    obtain ⟨hv1, hv2, hv3, hv4, hv5⟩ := hval
    have hnodup : ∀ e ∈ g.edges, ¬edgeMatches e a b = true := by
      intro e he hm
      exact hdup (List.any_eq_true.2 ⟨e, he, hm⟩)
    constructor
    · intro e he
      rcases List.mem_append.1 he with he | he
      · exact h.1 e he
      · rcases List.mem_singleton.1 he with rfl
        simp only
        omega
    · rw [List.pairwise_append]
      refine ⟨h.2, List.pairwise_singleton _ _, ?_⟩
      intro e he f hf
      rcases List.mem_singleton.1 hf with rfl
      intro hsame
      apply hnodup e he
      rw [edgeMatches]
      have hsame' : (min a.toNat b.toNat = e.v1 ∧ max a.toNat b.toNat = e.v2) ∨
          (min a.toNat b.toNat = e.v2 ∧ max a.toNat b.toNat = e.v1) := hsame
      simp only [decide_eq_true_eq]
      omega

/-- The invariant is preserved by any request sequence. -/
theorem applyConnects_inv (reqs : List (ℤ × ℤ)) :
    ∀ g : Graph, EdgeInv g.edges → EdgeInv (applyConnects g reqs).edges := by
  induction reqs with
  | nil => exact fun g h => h
  | cons r rs ih =>
    intro g h
    exact ih _ (addEdge_inv g r.1 r.2 h)

/-- Under the invariant, at most one stored edge matches any unordered
pair. -/
theorem EdgeInv_countP (l : List Edge) (h : EdgeInv l) (a b : ℕ) :
    l.countP (fun e => decide (sameUnordered e a b)) ≤ 1 := by
  induction l with
  | nil => simp
  | cons e rest ih =>
    have hrest : EdgeInv rest :=
      ⟨fun f hf => h.1 f (List.mem_cons_of_mem e hf), (List.pairwise_cons.1 h.2).2⟩
    have hp := (List.pairwise_cons.1 h.2).1
    rw [List.countP_cons]
    rcases he : decide (sameUnordered e a b) with _ | _
    · simpa [he] using ih hrest
    · have hsame : sameUnordered e a b := of_decide_eq_true he
      have hzero : rest.countP (fun f => decide (sameUnordered f a b)) = 0 := by
        rw [List.countP_eq_zero]
        intro f hf hfd
        have hfsame : sameUnordered f a b := of_decide_eq_true hfd
        apply hp f hf
        rcases hsame with ⟨h1, h2⟩ | ⟨h1, h2⟩ <;>
          rcases hfsame with ⟨h3, h4⟩ | ⟨h3, h4⟩ <;>
          unfold sameUnordered <;> omega
      simp [he, hzero]

/-- C8: from any state satisfying it, the no-self-loop / no-duplicate
invariant survives every sequence of `connect` requests, any unordered
pair is stored at most once, and a successful `connect(a, b)` makes the
reversed request `connect(b, a)` fail, leaving the graph unchanged. -/
theorem connect_invariants (g : Graph) (reqs : List (ℤ × ℤ)) (hg : EdgeInv g.edges) :
    EdgeInv (applyConnects g reqs).edges ∧
    (∀ a b : ℕ,
      (applyConnects g reqs).edges.countP (fun e => decide (sameUnordered e a b)) ≤ 1) ∧
    (∀ a b : ℤ, (addEdge g a b).1 = true →
      addEdge (addEdge g a b).2 b a = (false, (addEdge g a b).2)) := by
  refine ⟨applyConnects_inv reqs g hg, ?_, ?_⟩
  · intro a b
    exact EdgeInv_countP _ (applyConnects_inv reqs g hg) a b
  · intro a b hab
    obtain ⟨hval, hdup⟩ := (addEdge_spec g a b).2.1.1 hab
    obtain ⟨vx1, vx2, -, -, heq⟩ := (addEdge_spec g a b).2.2 hval hdup
    set g' := (addEdge g a b).2 with hg'
    have hmem : (⟨min a.toNat b.toNat, max a.toNat b.toNat,
        roundSqrt ((vx1.x - vx2.x) * (vx1.x - vx2.x) +
          (vx1.y - vx2.y) * (vx1.y - vx2.y))⟩ : Edge) ∈ g'.edges := by
      rw [hg', heq]
      simp
    have hdup' : hasEdge g' b a := by
      rw [hasEdge, List.any_eq_true]
      refine ⟨_, hmem, ?_⟩
      rw [edgeMatches]
      obtain ⟨h1, h2, h3, h4, h5⟩ := hval
      simp only [decide_eq_true_eq]
      omega
    have hfail : (addEdge g' b a).1 = false := by
      rcases hres : (addEdge g' b a).1 with _ | _
      · rfl
      · exact absurd ((addEdge_spec g' b a).2.1.1 hres).2 (not_not.2 hdup')
    have hunch : (addEdge g' b a).2 = g' := (addEdge_spec g' b a).1 hfail
    calc addEdge g' b a = ((addEdge g' b a).1, (addEdge g' b a).2) := rfl
      _ = (false, g') := by rw [hfail, hunch]

/-- Witness for C8: two vertices, request list
`[(0,1), (1,0), (0,0), (5,1)]` — the invariant holds afterwards, the pair
is stored once, and the concrete reversed request is rejected. -/
theorem connect_invariants_witness :
    EdgeInv (Graph.edges ⟨[⟨0, 0⟩, ⟨10, 0⟩], []⟩) ∧
    EdgeInv (applyConnects ⟨[⟨0, 0⟩, ⟨10, 0⟩], []⟩ [(0, 1), (1, 0), (0, 0), (5, 1)]).edges ∧
    (applyConnects ⟨[⟨0, 0⟩, ⟨10, 0⟩], []⟩
      [(0, 1), (1, 0), (0, 0), (5, 1)]).edges.countP
        (fun e => decide (sameUnordered e 0 1)) ≤ 1 ∧
    (addEdge ⟨[⟨0, 0⟩, ⟨10, 0⟩], []⟩ 0 1).1 = true ∧
    addEdge (addEdge ⟨[⟨0, 0⟩, ⟨10, 0⟩], []⟩ 0 1).2 1 0 =
      (false, (addEdge ⟨[⟨0, 0⟩, ⟨10, 0⟩], []⟩ 0 1).2) := by
  have h := connect_invariants ⟨[⟨0, 0⟩, ⟨10, 0⟩], []⟩ [(0, 1), (1, 0), (0, 0), (5, 1)]
    (by with_unfolding_all decide)
  exact ⟨by with_unfolding_all decide, h.1, h.2.1 0 1, by with_unfolding_all decide,
    h.2.2 0 1 (by with_unfolding_all decide)⟩

/-- Membership in a stable insertion. -/
theorem mem_insertEdge (x e : Edge) (l : List Edge) :
    x ∈ insertEdge e l ↔ x = e ∨ x ∈ l := by
  induction l with
  | nil => simp [insertEdge]
  | cons f t ih =>
    rw [insertEdge]
    by_cases h : e.weight ≤ f.weight
    · simp [h]
    · simp only [h, if_false, List.mem_cons, ih]
      tauto

/-- Inserting preserves sortedness by weight. -/
theorem pairwise_insertEdge (e : Edge) (l : List Edge)
    (h : l.Pairwise fun a b => a.weight ≤ b.weight) :
    (insertEdge e l).Pairwise fun a b => a.weight ≤ b.weight := by
  induction l with
  | nil => simp [insertEdge]
  | cons f t ih =>
    rw [insertEdge]
    obtain ⟨hf, ht⟩ := List.pairwise_cons.1 h
    by_cases hw : e.weight ≤ f.weight
    · simp only [hw, if_true]
      rw [List.pairwise_cons]
      refine ⟨?_, h⟩
      intro b hb
      rcases List.mem_cons.1 hb with rfl | hb
      · exact hw
      · exact le_trans hw (hf b hb)
    · simp only [hw, if_false]
      rw [List.pairwise_cons]
      refine ⟨?_, ih ht⟩
      intro b hb
      rcases (mem_insertEdge b e t).1 hb with rfl | hb
      · omega
      · exact hf b hb

/-- The sorted list is sorted by ascending weight. -/
theorem sortEdges_sorted (l : List Edge) :
    (sortEdges l).Pairwise fun a b => a.weight ≤ b.weight := by
  induction l with
  | nil => exact List.Pairwise.nil
  | cons e t ih => exact pairwise_insertEdge e (sortEdges t) ih

/-- Stable insertion is a permutation of consing. -/
theorem insertEdge_perm (e : Edge) (l : List Edge) :
    (insertEdge e l).Perm (e :: l) := by
  induction l with
  | nil => simp [insertEdge]
  | cons f t ih =>
    rw [insertEdge]
    by_cases hw : e.weight ≤ f.weight
    · simp [hw]
    · simp only [hw, if_false]
      exact (List.Perm.cons f ih).trans (List.Perm.swap e f t)

/-- The sort permutes the edge list. -/
theorem sortEdges_perm (l : List Edge) : (sortEdges l).Perm l := by
  induction l with
  | nil => exact List.Perm.refl []
  | cons e t ih =>
    exact ((insertEdge_perm e (sortEdges t)).trans (List.Perm.cons e ih))

/-- Stability, filter form: inserting an edge of weight `w` puts it in
front of the later edges of weight `w` (every edge passed over is
strictly lighter), and inserting any other weight leaves the weight-`w`
subsequence alone. -/
theorem filter_insertEdge (e : Edge) (l : List Edge) (w : ℕ) :
    (insertEdge e l).filter (fun f => decide (f.weight = w)) =
      if e.weight = w then e :: l.filter (fun f => decide (f.weight = w))
      else l.filter (fun f => decide (f.weight = w)) := by
  induction l with
  | nil =>
    by_cases h : e.weight = w <;> simp [insertEdge, List.filter, h]
  | cons f t ih =>
    rw [insertEdge]
    by_cases hw : e.weight ≤ f.weight
    · rw [if_pos hw]
      by_cases h : e.weight = w
      · rw [if_pos h, List.filter_cons_of_pos (by simp [h])]
      · rw [if_neg h, List.filter_cons_of_neg (by simp [h])]
    · rw [if_neg hw]
      have hfw : f.weight < e.weight := by omega
      by_cases h : e.weight = w
      · have hfne : ¬f.weight = w := by omega
        rw [if_pos h, List.filter_cons_of_neg (by simp [hfne]), ih, if_pos h,
          List.filter_cons_of_neg (by simp [hfne])]
      · rw [if_neg h]
        by_cases hf : f.weight = w
        · rw [List.filter_cons_of_pos (by simp [hf]), ih, if_neg h,
            List.filter_cons_of_pos (by simp [hf])]
        · rw [List.filter_cons_of_neg (by simp [hf]), ih, if_neg h,
            List.filter_cons_of_neg (by simp [hf])]

/-- Stability of the whole sort: the subsequence of any fixed weight `w`
is exactly the input's, in input order. -/
theorem sortEdges_filter (l : List Edge) (w : ℕ) :
    (sortEdges l).filter (fun f => decide (f.weight = w)) =
      l.filter (fun f => decide (f.weight = w)) := by
  induction l with
  | nil => rfl
  | cons e t ih =>
    rw [sortEdges, filter_insertEdge]
    by_cases h : e.weight = w <;> simp [h, ih]

/-- The Kruskal selection loop returns a subsequence of the list it
walks. -/
theorem kruskalAux_sublist (n : ℕ) :
    ∀ (l : List Edge) (uf : UF) (k : ℕ), (kruskalAux n l uf k).Sublist l := by
  intro l
  induction l with
  | nil => intro uf k; exact List.Sublist.refl []
  | cons e rest ih =>
    intro uf k
    rw [kruskalAux]
    by_cases hne : (find uf (some e.v1)).1 ≠ ((find (find uf (some e.v1)).2 (some e.v2))).1
    · rw [if_pos hne]
      by_cases hk : k + 1 = n - 1
      · rw [if_pos hk]
        exact (List.nil_sublist rest).cons₂ e
      · rw [if_neg hk]
        exact (ih _ _).cons₂ e
    · rw [if_neg hne]
      exact (ih _ _).cons e

/-- C2: `findMST` sorts stably by ascending weight — the sorted list it
walks is weight-sorted, a permutation of the stored edges, and its
subsequence at each fixed weight is the input subsequence in insertion
order — and consequently the equal-weight edges of the MST result appear
in their input insertion order (a subsequence of the input's weight-`w`
edges). -/
theorem findMST_stable_sort (g : Graph) (w : ℕ) :
    (sortEdges g.edges).Pairwise (fun a b => a.weight ≤ b.weight) ∧
    (sortEdges g.edges).Perm g.edges ∧
    (sortEdges g.edges).filter (fun f => decide (f.weight = w)) =
      g.edges.filter (fun f => decide (f.weight = w)) ∧
    ((findMST g).filter (fun f => decide (f.weight = w))).Sublist
      (g.edges.filter (fun f => decide (f.weight = w))) := by
  refine ⟨sortEdges_sorted g.edges, sortEdges_perm g.edges, sortEdges_filter g.edges w, ?_⟩
  rw [findMST]
  by_cases hn : g.vertices.length < 2
  · simp [hn]
  · simp only [hn, if_false]
    rw [← sortEdges_filter g.edges w]
    exact (kruskalAux_sublist _ _ _ _).filter _

theorem jget_jset_self (l : List (Option ℕ)) (i : ℕ) (v : Option ℕ)
    (h : i < l.length) : jget (jset l i v) (some i) = v := by
  rw [jset, if_pos h, jget]
  rw [List.get?_set_eq, List.get?_eq_get h]
  cases v <;> rfl

theorem jget_jset_ne (l : List (Option ℕ)) (i j : ℕ) (v : Option ℕ)
    (h : i < l.length) (hne : j ≠ i) : jget (jset l i v) (some j) = jget l (some j) := by
  rw [jset, if_pos h, jget, jget, List.get?_set_ne _ _ (fun hcon => hne hcon.symm)]

theorem jset_length (l : List (Option ℕ)) (i : ℕ) (v : Option ℕ)
    (h : i < l.length) : (jset l i v).length = l.length := by
  rw [jset, if_pos h, List.length_set]

theorem iterUF_add (uf : UF) (a b x : ℕ) :
    iterUF uf (a + b) x = iterUF uf b (iterUF uf a x) := by
  induction a generalizing x with
  | zero => rw [Nat.zero_add]; rfl
  | succ a ih =>
    have : a + 1 + b = (a + b) + 1 := by omega
    rw [this, iterUF, iterUF, ih]

theorem stepUF_of_isRoot (uf : UF) (x : ℕ) (h : isRoot uf x) : stepUF uf x = x := by
  rw [stepUF, h]

theorem iterUF_of_isRoot (uf : UF) (k x : ℕ) (h : isRoot uf x) :
    iterUF uf k x = x := by
  induction k with
  | zero => rfl
  | succ k ih => rw [iterUF, stepUF_of_isRoot uf x h, ih]

theorem stepUF_lt (n : ℕ) (uf : UF) (hwf : WF n uf) (x : ℕ) (hx : x < n) :
    stepUF uf x < n := by
  obtain ⟨j, hj, hget⟩ := hwf.inRange x hx
  rw [stepUF, hget]
  exact hj

theorem iterUF_lt (n : ℕ) (uf : UF) (hwf : WF n uf) (k x : ℕ) (hx : x < n) :
    iterUF uf k x < n := by
  induction k generalizing x with
  | zero => exact hx
  | succ k ih => exact ih (stepUF uf x) (stepUF_lt n uf hwf x hx)

/-- Roots reachable from the same element coincide: the walk is
deterministic and stops at roots. -/
theorem IsRootOf_unique (uf : UF) (x r1 r2 : ℕ)
    (h1 : IsRootOf uf x r1) (h2 : IsRootOf uf x r2) : r1 = r2 := by
  obtain ⟨hr1, k1, hk1⟩ := h1
  obtain ⟨hr2, k2, hk2⟩ := h2
  rcases le_total k1 k2 with h | h
  · obtain ⟨t, rfl⟩ := Nat.exists_eq_add_of_le h
    rw [iterUF_add, hk1, iterUF_of_isRoot uf t r1 hr1] at hk2
    exact hk2
  · obtain ⟨t, rfl⟩ := Nat.exists_eq_add_of_le h
    rw [iterUF_add, hk2, iterUF_of_isRoot uf t r2 hr2] at hk1
    exact hk1.symm

theorem IsRootOf_of_isRoot (uf : UF) (r : ℕ) (h : isRoot uf r) : IsRootOf uf r r :=
  ⟨h, 0, rfl⟩

theorem IsRootOf_isRoot_iff (uf : UF) (r s : ℕ) (h : isRoot uf r) :
    IsRootOf uf r s ↔ s = r :=
  ⟨fun hs => IsRootOf_unique uf r s r hs (IsRootOf_of_isRoot uf r h),
   fun he => he ▸ IsRootOf_of_isRoot uf r h⟩

/-- Shifting the start of the walk across one non-root step does not
change the root reached. -/
theorem IsRootOf_step (uf : UF) (x s : ℕ) (h : ¬isRoot uf x) :
    IsRootOf uf x s ↔ IsRootOf uf (stepUF uf x) s := by
  constructor
  · rintro ⟨hs, k, hk⟩
    rcases k with _ | k
    · rw [iterUF] at hk
      subst hk
      exact absurd hs h
    · exact ⟨hs, k, hk⟩
  · rintro ⟨hs, k, hk⟩
    exact ⟨hs, k + 1, hk⟩

theorem stepUF_d_lt (n : ℕ) (uf : UF) (hwf : WF n uf) (d : ℕ → ℕ)
    (hd : ∀ i j, i < n → jget uf.parent (some i) = some j → j ≠ i → d j < d i)
    (x : ℕ) (hx : x < n) (h : ¬isRoot uf x) : d (stepUF uf x) < d x := by
  obtain ⟨j, hj, hget⟩ := hwf.inRange x hx
  have hne : j ≠ x := by
    intro he
    exact h (by rw [isRoot, hget, he])
  rw [stepUF, hget]
  exact hd x j hx hget hne

/-- Along the walk the measure only decreases (or the walk has not
moved). -/
theorem iterUF_d_le (n : ℕ) (uf : UF) (hwf : WF n uf) (d : ℕ → ℕ)
    (hd : ∀ i j, i < n → jget uf.parent (some i) = some j → j ≠ i → d j < d i)
    (k x : ℕ) (hx : x < n) :
    iterUF uf k x = x ∨ d (iterUF uf k x) < d x := by
  induction k generalizing x with
  | zero => exact Or.inl rfl
  | succ k ih =>
    rw [iterUF]
    by_cases hroot : isRoot uf x
    · rw [stepUF_of_isRoot uf x hroot]
      exact ih x hx
    · have hlt := stepUF_d_lt n uf hwf d hd x hx hroot
      rcases ih (stepUF uf x) (stepUF_lt n uf hwf x hx) with he | hlt2
      · rw [he]
        exact Or.inr hlt
      · exact Or.inr (lt_trans hlt2 hlt)

/-- Every element of a well-formed forest reaches a root, in at most `n`
steps. -/
theorem reach_root (n : ℕ) (uf : UF) (hwf : WF n uf) (x : ℕ) (hx : x < n) :
    ∃ k, k ≤ n ∧ isRoot uf (iterUF uf k x) := by
  obtain ⟨d, hd⟩ := hwf.acyc
  have hex : ∃ k, isRoot uf (iterUF uf k x) := by
    have main : ∀ m y, y < n → d y < m → ∃ k, isRoot uf (iterUF uf k y) := by
      intro m
      induction m with
      | zero => omega
      | succ m ih =>
        intro y hy hdy
        by_cases hroot : isRoot uf y
        · exact ⟨0, hroot⟩
        · obtain ⟨k, hk⟩ := ih (stepUF uf y) (stepUF_lt n uf hwf y hy)
            (by have := stepUF_d_lt n uf hwf d hd y hy hroot; omega)
          exact ⟨k + 1, by rw [iterUF]; exact hk⟩
    exact main (d x + 1) x hx (by omega)
  set L := Nat.find hex with hL
  have hLroot : isRoot uf (iterUF uf L x) := Nat.find_spec hex
  have hLmin : ∀ m, m < L → ¬isRoot uf (iterUF uf m x) := fun m hm => Nat.find_min hex hm
  refine ⟨L, ?_, hLroot⟩
  by_contra hgt
  push_neg at hgt
  have hn0 : 0 < n := by omega
  have hmap : ∀ m : Fin (n + 1), iterUF uf m.1 x < n :=
    fun m => iterUF_lt n uf hwf m.1 x hx
  obtain ⟨m1, m2, hne, heq⟩ := Fintype.exists_ne_map_eq_of_card_lt
    (fun m : Fin (n + 1) => (⟨iterUF uf m.1 x, hmap m⟩ : Fin n)) (by simp)
  have heq' : iterUF uf m1.1 x = iterUF uf m2.1 x := congrArg Fin.val heq
  have key : ∀ a b : Fin (n + 1), a.1 < b.1 →
      iterUF uf a.1 x = iterUF uf b.1 x → False := by
    intro a b hab he
    have hbL : b.1 < L := by
      have := b.2
      omega
    have hsmall : a.1 + (L - b.1) < L := by omega
    apply hLmin _ hsmall
    have hchain : iterUF uf L x = iterUF uf (a.1 + (L - b.1)) x := by
      calc iterUF uf L x = iterUF uf (b.1 + (L - b.1)) x := by
            rw [Nat.add_sub_cancel' (le_of_lt hbL)]
        _ = iterUF uf (L - b.1) (iterUF uf b.1 x) := iterUF_add uf b.1 (L - b.1) x
        _ = iterUF uf (L - b.1) (iterUF uf a.1 x) := by rw [he]
        _ = iterUF uf (a.1 + (L - b.1)) x := (iterUF_add uf a.1 (L - b.1) x).symm
    rw [← hchain]
    exact hLroot
  rcases Nat.lt_trichotomy m1.1 m2.1 with h | h | h
  · exact key m1 m2 h heq'
  · exact hne (Fin.ext h)
  · exact key m2 m1 h heq'.symm

/-- Every element of a well-formed forest has a root, which is in
range. -/
theorem IsRootOf_exists (n : ℕ) (uf : UF) (hwf : WF n uf) (x : ℕ) (hx : x < n) :
    ∃ r, IsRootOf uf x r ∧ r < n := by
  obtain ⟨k, -, hroot⟩ := reach_root n uf hwf x hx
  exact ⟨iterUF uf k x, ⟨hroot, k, rfl⟩, iterUF_lt n uf hwf k x hx⟩

/-- Re-parenting a non-root `x` directly to its root `r` (the path
compression write `parent[x] = r`) preserves well-formedness, the rank
array, which elements are roots, and the root of every element. -/
theorem compress_preserve (n : ℕ) (uf : UF) (x r : ℕ) (hwf : WF n uf) (hx : x < n)
    (hr : IsRootOf uf x r) (hnr : ¬isRoot uf x) :
    WF n (setP uf (some x) (some r)) ∧
    (setP uf (some x) (some r)).rank = uf.rank ∧
    (∀ y, y < n → (isRoot (setP uf (some x) (some r)) y ↔ isRoot uf y)) ∧
    (∀ y s, y < n → (IsRootOf (setP uf (some x) (some r)) y s ↔ IsRootOf uf y s)) := by
  set uf2 := setP uf (some x) (some r) with huf2
  have hxlen : x < uf.parent.length := by rw [hwf.plen]; exact hx
  have hrn : r < n := by
    obtain ⟨-, k, hk⟩ := hr
    rw [← hk]
    exact iterUF_lt n uf hwf k x hx
  have hrne : r ≠ x := by
    intro he
    exact hnr (he ▸ hr.1)
  have hparent : uf2.parent = jset uf.parent x (some r) := rfl
  have hrank : uf2.rank = uf.rank := rfl
  have hget_self : jget uf2.parent (some x) = some r := by
    rw [hparent]
    exact jget_jset_self uf.parent x (some r) hxlen
  have hget_ne : ∀ y, y ≠ x → jget uf2.parent (some y) = jget uf.parent (some y) := by
    intro y hy
    rw [hparent]
    exact jget_jset_ne uf.parent x y (some r) hxlen hy
  have hisr : ∀ y, y < n → (isRoot uf2 y ↔ isRoot uf y) := by
    intro y hy
    by_cases hyx : y = x
    · subst hyx
      rw [isRoot, isRoot, hget_self]
      constructor
      · intro h
        exact absurd (Option.some_injective _ h) hrne
      · intro h
        exact absurd h hnr
    · rw [isRoot, isRoot, hget_ne y hyx]
  have hstep_self : stepUF uf2 x = r := by rw [stepUF, hget_self]
  have hstep_ne : ∀ y, y ≠ x → stepUF uf2 y = stepUF uf y := by
    intro y hy
    rw [stepUF, stepUF, hget_ne y hy]
  obtain ⟨d, hd⟩ := hwf.acyc
  have hdr : d r < d x := by
    obtain ⟨-, k, hk⟩ := hr
    rcases iterUF_d_le n uf hwf d hd k x hx with he | hlt
    · rw [hk] at he
      exact absurd he hrne
    · rw [hk] at hlt
      exact hlt
  have hwf2 : WF n uf2 := by
    refine ⟨?_, ?_, ?_, ?_⟩
    · rw [hparent, jset_length uf.parent x (some r) hxlen, hwf.plen]
    · rw [hrank, hwf.rlen]
    · intro i hi
      by_cases hix : i = x
      · subst hix
        exact ⟨r, hrn, hget_self⟩
      · obtain ⟨j, hj, hget⟩ := hwf.inRange i hi
        exact ⟨j, hj, by rw [hget_ne i hix]; exact hget⟩
    · refine ⟨d, ?_⟩
      intro i j hi hget hne
      by_cases hix : i = x
      · subst hix
        rw [hget_self] at hget
        cases hget
        exact hdr
      · rw [hget_ne i hix] at hget
        exact hd i j hi hget hne
  have hrof : ∀ y s, y < n → (IsRootOf uf2 y s ↔ IsRootOf uf y s) := by
    have main : ∀ m y, y < n → d y < m → ∀ s,
        (IsRootOf uf2 y s ↔ IsRootOf uf y s) := by
      intro m
      induction m with
      | zero => omega
      | succ m ih =>
        intro y hy hdy s
        by_cases hyx : y = x
        · subst hyx
          have huf_x : IsRootOf uf y s ↔ s = r :=
            ⟨fun hs => IsRootOf_unique uf y s r hs hr, fun he => he ▸ hr⟩
          have hroot2 : IsRootOf uf2 y r := by
            refine ⟨?_, 1, ?_⟩
            · rw [isRoot, hget_ne r hrne]
              exact hr.1
            · rw [iterUF, iterUF, hstep_self]
          have huf2_x : IsRootOf uf2 y s ↔ s = r :=
            ⟨fun hs => IsRootOf_unique uf2 y s r hs hroot2, fun he => he ▸ hroot2⟩
          rw [huf_x, huf2_x]
        · by_cases hroot : isRoot uf y
          · rw [IsRootOf_isRoot_iff uf y s hroot,
              IsRootOf_isRoot_iff uf2 y s ((hisr y hy).2 hroot)]
          · have hroot2 : ¬isRoot uf2 y := fun h => hroot ((hisr y hy).1 h)
            have hpn : stepUF uf y < n := stepUF_lt n uf hwf y hy
            have hdp : d (stepUF uf y) < d y := stepUF_d_lt n uf hwf d hd y hy hroot
            rw [IsRootOf_step uf2 y s hroot2, hstep_ne y hyx,
              IsRootOf_step uf y s hroot]
            exact ih (stepUF uf y) hpn (by omega) s
    exact fun y s hy => main (d y + 1) y hy (by omega) s
  exact ⟨hwf2, hrank, hisr, hrof⟩

/-- Correctness of the recursive, path-compressing `find`, fuel-indexed:
with enough fuel to cover the walk, `find` returns the root of its
argument and only re-parents nodes to their root — the partition, the
root set and the rank array are untouched. -/
theorem findAux_spec :
    ∀ (fuel n : ℕ) (uf : UF) (x : ℕ), WF n uf → x < n →
      (∃ k, k < fuel ∧ isRoot uf (iterUF uf k x)) →
      ∃ r uf2, findAux fuel uf (some x) = (some r, uf2) ∧ IsRootOf uf x r ∧
        WF n uf2 ∧ uf2.rank = uf.rank ∧
        (∀ y, y < n → (isRoot uf2 y ↔ isRoot uf y)) ∧
        (∀ y s, y < n → (IsRootOf uf2 y s ↔ IsRootOf uf y s)) := by
  intro fuel
  induction fuel with
  | zero =>
    rintro n uf x hwf hx ⟨k, hk, -⟩
    omega
  | succ fuel ih =>
    rintro n uf x hwf hx ⟨k, hk, hkroot⟩
    by_cases hbase : jget uf.parent (some x) = some x
    · refine ⟨x, uf, ?_, IsRootOf_of_isRoot uf x hbase, hwf, rfl,
        fun y hy => Iff.rfl, fun y s hy => Iff.rfl⟩
      rw [findAux]
      simp [hbase]
    · have hnroot : ¬isRoot uf x := hbase
      obtain ⟨p, hpn, hp⟩ := hwf.inRange x hx
      have hstep : stepUF uf x = p := by rw [stepUF, hp]
      have hk0 : k ≠ 0 := by
        intro he
        subst he
        exact hnroot hkroot
      have hadq : ∃ k2, k2 < fuel ∧ isRoot uf (iterUF uf k2 p) := by
        refine ⟨k - 1, by omega, ?_⟩
        have : k = (k - 1) + 1 := by omega
        rw [this, iterUF, hstep] at hkroot
        exact hkroot
      obtain ⟨r, uf1, heq, hrofp, hwf1, hrank1, hisr1, hrof1⟩ := ih n uf p hwf hpn hadq
      have hrofx : IsRootOf uf x r := by
        rw [IsRootOf_step uf x r hnroot, hstep]
        exact hrofp
      have hpx : p ≠ x := fun he => hnroot (by rw [isRoot, hp, he])
      have hcond : ¬(some p = (some x : Option ℕ)) :=
        fun hc => hpx (Option.some_injective _ hc)
      have hres : findAux (fuel + 1) uf (some x) = (some r, setP uf1 (some x) (some r)) := by
        rw [findAux]
        simp only [hp]
        rw [if_neg hcond, heq]
      have hrofx1 : IsRootOf uf1 x r := (hrof1 x r hx).2 hrofx
      have hnroot1 : ¬isRoot uf1 x := fun h => hnroot ((hisr1 x hx).1 h)
      obtain ⟨hwf2, hrank2, hisr2, hrof2⟩ :=
        compress_preserve n uf1 x r hwf1 hx hrofx1 hnroot1
      refine ⟨r, setP uf1 (some x) (some r), hres, hrofx, hwf2, ?_, ?_, ?_⟩
      · rw [hrank2, hrank1]
      · intro y hy
        rw [hisr2 y hy, hisr1 y hy]
      · intro y s hy
        rw [hrof2 y s hy, hrof1 y s hy]

/-- Top-level `find` on a well-formed state: the fuel
`parent.length + 1` always suffices. -/
theorem find_spec (n : ℕ) (uf : UF) (x : ℕ) (hwf : WF n uf) (hx : x < n) :
    ∃ r uf2, find uf (some x) = (some r, uf2) ∧ IsRootOf uf x r ∧
      WF n uf2 ∧ uf2.rank = uf.rank ∧
      (∀ y, y < n → (isRoot uf2 y ↔ isRoot uf y)) ∧
      (∀ y s, y < n → (IsRootOf uf2 y s ↔ IsRootOf uf y s)) := by
  obtain ⟨k, hkn, hkroot⟩ := reach_root n uf hwf x hx
  have := findAux_spec (uf.parent.length + 1) n uf x hwf hx
    ⟨k, by rw [hwf.plen]; omega, hkroot⟩
  rw [find]
  exact this

theorem IsRootOf_lt (n : ℕ) (uf : UF) (hwf : WF n uf) (x r : ℕ) (hx : x < n)
    (h : IsRootOf uf x r) : r < n := by
  obtain ⟨-, k, hk⟩ := h
  rw [← hk]
  exact iterUF_lt n uf hwf k x hx

/-- Linking root `r1` below root `r2` (the `union` write
`parent[r1] = r2`) preserves well-formedness; afterwards the roots are
the old roots except `r1`, and every element previously rooted at `r1`
is now rooted at `r2` while all other elements keep their root. -/
theorem link_preserve (n : ℕ) (uf : UF) (r1 r2 : ℕ) (hwf : WF n uf)
    (h1 : isRoot uf r1) (h2 : isRoot uf r2) (h1n : r1 < n) (h2n : r2 < n)
    (hne : r1 ≠ r2) :
    WF n (setP uf (some r1) (some r2)) ∧
    (setP uf (some r1) (some r2)).rank = uf.rank ∧
    (∀ z, z < n → (isRoot (setP uf (some r1) (some r2)) z ↔ isRoot uf z ∧ z ≠ r1)) ∧
    (∀ z s, z < n → (IsRootOf (setP uf (some r1) (some r2)) z s ↔
      ((IsRootOf uf z r1 ∧ s = r2) ∨ (¬IsRootOf uf z r1 ∧ IsRootOf uf z s)))) := by
  set uf2 := setP uf (some r1) (some r2) with huf2
  have hxlen : r1 < uf.parent.length := by rw [hwf.plen]; exact h1n
  have hparent : uf2.parent = jset uf.parent r1 (some r2) := rfl
  have hget_self : jget uf2.parent (some r1) = some r2 := by
    rw [hparent]
    exact jget_jset_self uf.parent r1 (some r2) hxlen
  have hget_ne : ∀ z, z ≠ r1 → jget uf2.parent (some z) = jget uf.parent (some z) := by
    intro z hz
    rw [hparent]
    exact jget_jset_ne uf.parent r1 z (some r2) hxlen hz
  have hisr : ∀ z, z < n → (isRoot uf2 z ↔ isRoot uf z ∧ z ≠ r1) := by
    intro z hz
    by_cases hzr : z = r1
    · subst hzr
      rw [isRoot, hget_self]
      constructor
      · intro h
        exact absurd (Option.some_injective _ h).symm hne
      · rintro ⟨-, hcon⟩
        exact absurd rfl hcon
    · rw [isRoot, isRoot, hget_ne z hzr]
      exact ⟨fun h => ⟨h, hzr⟩, fun h => h.1⟩
  have hstep_self : stepUF uf2 r1 = r2 := by rw [stepUF, hget_self]
  have hstep_ne : ∀ z, z ≠ r1 → stepUF uf2 z = stepUF uf z := by
    intro z hz
    rw [stepUF, stepUF, hget_ne z hz]
  obtain ⟨d, hd⟩ := hwf.acyc
  have hr2r1 : ¬IsRootOf uf r2 r1 := by
    rw [IsRootOf_isRoot_iff uf r2 r1 h2]
    exact hne
  have hwf2 : WF n uf2 := by
    refine ⟨?_, ?_, ?_, ?_⟩
    · rw [hparent, jset_length uf.parent r1 (some r2) hxlen, hwf.plen]
    · exact hwf.rlen
    · intro i hi
      by_cases hir : i = r1
      · subst hir
        exact ⟨r2, h2n, hget_self⟩
      · obtain ⟨j, hj, hget⟩ := hwf.inRange i hi
        exact ⟨j, hj, by rw [hget_ne i hir]; exact hget⟩
    · classical
      refine ⟨fun i => if IsRootOf uf i r1 then d i + d r2 + 1 else d i, ?_⟩
      intro i j hi hget hnij
      dsimp only
      by_cases hir : i = r1
      · subst hir
        rw [hget_self] at hget
        obtain rfl : j = r2 := Option.some_injective _ hget.symm
        rw [if_pos (IsRootOf_of_isRoot uf i h1), if_neg hr2r1]
        omega
      · rw [hget_ne i hir] at hget
        have hnroot : ¬isRoot uf i := by
          intro hroot
          rw [isRoot, hget] at hroot
          exact hnij (Option.some_injective _ hroot)
        have hstep : stepUF uf i = j := by rw [stepUF, hget]
        have hiff : IsRootOf uf i r1 ↔ IsRootOf uf j r1 := by
          rw [IsRootOf_step uf i r1 hnroot, hstep]
        have hdij : d j < d i := hd i j hi hget hnij
        by_cases hc : IsRootOf uf i r1
        · rw [if_pos hc, if_pos (hiff.1 hc)]
          omega
        · rw [if_neg hc, if_neg (fun h => hc (hiff.2 h))]
          omega
  have hrof : ∀ z s, z < n → (IsRootOf uf2 z s ↔
      ((IsRootOf uf z r1 ∧ s = r2) ∨ (¬IsRootOf uf z r1 ∧ IsRootOf uf z s))) := by
    have main : ∀ m z, z < n → d z < m → ∀ s,
        (IsRootOf uf2 z s ↔
          ((IsRootOf uf z r1 ∧ s = r2) ∨ (¬IsRootOf uf z r1 ∧ IsRootOf uf z s))) := by
      intro m
      induction m with
      | zero => omega
      | succ m ih =>
        intro z hz hdz s
        by_cases hzr : z = r1
        · subst hzr
          have hroot2 : IsRootOf uf2 z r2 := by
            refine ⟨?_, 1, ?_⟩
            · rw [isRoot, hget_ne r2 (fun h => hne h.symm)]
              exact h2
            · rw [iterUF, iterUF, hstep_self]
          have hl : IsRootOf uf2 z s ↔ s = r2 :=
            ⟨fun hs => IsRootOf_unique uf2 z s r2 hs hroot2, fun he => he ▸ hroot2⟩
          have hzroot : IsRootOf uf z z := IsRootOf_of_isRoot uf z h1
          rw [hl]
          constructor
          · intro he
            exact Or.inl ⟨hzroot, he⟩
          · rintro (⟨-, he⟩ | ⟨hcon, -⟩)
            · exact he
            · exact absurd hzroot hcon
        · by_cases hroot : isRoot uf z
          · have hroot2 : isRoot uf2 z := (hisr z hz).2 ⟨hroot, hzr⟩
            rw [IsRootOf_isRoot_iff uf2 z s hroot2, IsRootOf_isRoot_iff uf z s hroot]
            have hnr1 : ¬IsRootOf uf z r1 := by
              rw [IsRootOf_isRoot_iff uf z r1 hroot]
              exact fun h => hzr h.symm
            constructor
            · intro he
              exact Or.inr ⟨hnr1, he⟩
            · rintro (⟨hcon, -⟩ | ⟨-, he⟩)
              · exact absurd hcon hnr1
              · exact he
          · have hroot2 : ¬isRoot uf2 z := by
              rw [hisr z hz]
              exact fun h => hroot h.1
            have hpn : stepUF uf z < n := stepUF_lt n uf hwf z hz
            have hdp : d (stepUF uf z) < d z := stepUF_d_lt n uf hwf d hd z hz hroot
            rw [IsRootOf_step uf2 z s hroot2, hstep_ne z hzr,
              IsRootOf_step uf z s hroot, IsRootOf_step uf z r1 hroot]
            exact ih (stepUF uf z) hpn (by omega) s
    exact fun z s hz => main (d z + 1) z hz (by omega) s
  exact ⟨hwf2, rfl, hisr, hrof⟩

theorem sameSet_iff_root_eq (uf : UF) (a b ra rb : ℕ)
    (hra : IsRootOf uf a ra) (hrb : IsRootOf uf b rb) :
    sameSet uf a b ↔ ra = rb := by
  constructor
  · rintro ⟨r, h1, h2⟩
    rw [IsRootOf_unique uf a ra r hra h1]
    exact (IsRootOf_unique uf b rb r hrb h2).symm
  · intro he
    exact ⟨rb, he ▸ hra, hrb⟩

theorem sameSet_refl (uf : UF) (a r : ℕ) (hra : IsRootOf uf a r) : sameSet uf a a :=
  ⟨r, hra, hra⟩

theorem rootCount_congr (n : ℕ) (uf1 uf2 : UF)
    (h : ∀ z, z < n → (isRoot uf1 z ↔ isRoot uf2 z)) :
    rootCount n uf1 = rootCount n uf2 := by
  rw [rootCount, rootCount]
  congr 1
  apply Finset.filter_congr
  intro z hz
  rw [Finset.mem_range] at hz
  simp only [h z hz]

theorem rootCount_pos (n : ℕ) (uf : UF) (hwf : WF n uf) (hn : 1 ≤ n) :
    1 ≤ rootCount n uf := by
  obtain ⟨r, hr, hrn⟩ := IsRootOf_exists n uf hwf 0 (by omega)
  rw [rootCount]
  refine Finset.card_pos.2 ⟨r, ?_⟩
  rw [Finset.mem_filter, Finset.mem_range]
  exact ⟨hrn, hr.1⟩

theorem rootCount_two (n : ℕ) (uf : UF) (r1 r2 : ℕ) (h1 : isRoot uf r1)
    (h2 : isRoot uf r2) (h1n : r1 < n) (h2n : r2 < n) (hne : r1 ≠ r2) :
    2 ≤ rootCount n uf := by
  rw [rootCount]
  refine Finset.one_lt_card.2 ⟨r1, ?_, r2, ?_, hne⟩ <;>
    rw [Finset.mem_filter, Finset.mem_range]
  · exact ⟨h1n, h1⟩
  · exact ⟨h2n, h2⟩

theorem rootCount_erase (n : ℕ) (uf1 uf2 : UF) (r1 : ℕ) (h1 : isRoot uf2 r1)
    (h1n : r1 < n)
    (h : ∀ z, z < n → (isRoot uf1 z ↔ isRoot uf2 z ∧ z ≠ r1)) :
    rootCount n uf1 = rootCount n uf2 - 1 := by
  rw [rootCount, rootCount]
  have hset : (Finset.range n).filter (fun i => isRoot uf1 i) =
      ((Finset.range n).filter (fun i => isRoot uf2 i)).erase r1 := by
    ext z
    simp only [Finset.mem_erase, Finset.mem_filter, Finset.mem_range]
    constructor
    · rintro ⟨hz, hroot⟩
      obtain ⟨hroot2, hzr⟩ := (h z hz).1 hroot
      exact ⟨hzr, hz, hroot2⟩
    · rintro ⟨hzr, hz, hroot2⟩
      exact ⟨hz, (h z hz).2 ⟨hroot2, hzr⟩⟩
  rw [hset, Finset.card_erase_of_mem]
  simp only [Finset.mem_filter, Finset.mem_range]
  exact ⟨h1n, h1⟩

theorem rootCount_one_iff (n : ℕ) (uf : UF) (hwf : WF n uf) (hn : 1 ≤ n) :
    rootCount n uf = 1 ↔ ∀ a b, a < n → b < n → sameSet uf a b := by
  constructor
  · intro hone a b ha hb
    rw [rootCount] at hone
    obtain ⟨c, hc⟩ := Finset.card_eq_one.1 hone
    obtain ⟨ra, hra, hran⟩ := IsRootOf_exists n uf hwf a ha
    obtain ⟨rb, hrb, hrbn⟩ := IsRootOf_exists n uf hwf b hb
    have hmem : ∀ r, r < n → isRoot uf r → r = c := by
      intro r hr hroot
      have hmem2 : r ∈ (Finset.range n).filter fun i => isRoot uf i := by
        simp only [Finset.mem_filter, Finset.mem_range]
        exact ⟨hr, hroot⟩
      rw [hc, Finset.mem_singleton] at hmem2
      exact hmem2
    rw [sameSet_iff_root_eq uf a b ra rb hra hrb,
      hmem ra hran hra.1, hmem rb hrbn hrb.1]
  · intro hall
    obtain ⟨r0, hr0, hr0n⟩ := IsRootOf_exists n uf hwf 0 (by omega)
    rw [rootCount]
    have hset : (Finset.range n).filter (fun i => isRoot uf i) = {r0} := by
      ext z
      rw [Finset.mem_filter, Finset.mem_range, Finset.mem_singleton]
      constructor
      · rintro ⟨hz, hroot⟩
        obtain ⟨r, hzr, h0r⟩ := hall z 0 hz (by omega)
        rw [← IsRootOf_unique uf z r z hzr (IsRootOf_of_isRoot uf z hroot)]
        exact IsRootOf_unique uf 0 r r0 h0r hr0
      · rintro rfl
        exact ⟨hr0n, hr0.1⟩
    rw [hset, Finset.card_singleton]

/-- Abstract effect of a union-link on the partition: elements of the two
merged trees become a single tree, everything else is untouched. -/
theorem link_merge (n : ℕ) (uf ufL : UF) (x y rx ry L W : ℕ) (hwf : WF n uf)
    (hx : x < n) (hy : y < n)
    (hrx : IsRootOf uf x rx) (hry : IsRootOf uf y ry) (hne : rx ≠ ry)
    (hLW : (L = rx ∧ W = ry) ∨ (L = ry ∧ W = rx))
    (hchar : ∀ z s, z < n → (IsRootOf ufL z s ↔
      ((IsRootOf uf z L ∧ s = W) ∨ (¬IsRootOf uf z L ∧ IsRootOf uf z s)))) :
    ∀ a b, a < n → b < n → (sameSet ufL a b ↔
      sameSet uf a b ∨ (sameSet uf a x ∧ sameSet uf y b) ∨
      (sameSet uf a y ∧ sameSet uf x b)) := by
  intro a b ha hb
  obtain ⟨ra, hra, hran⟩ := IsRootOf_exists n uf hwf a ha
  obtain ⟨rb, hrb, hrbn⟩ := IsRootOf_exists n uf hwf b hb
  have hcompute : ∀ c rc, c < n → IsRootOf uf c rc → ∀ s,
      (IsRootOf ufL c s ↔ s = (if rc = L then W else rc)) := by
    intro c rc hcn hrc s
    rw [hchar c s hcn]
    by_cases hc : rc = L
    · rw [if_pos hc]
      have hT : IsRootOf uf c L := hc ▸ hrc
      constructor
      · rintro (⟨-, he⟩ | ⟨hcon, -⟩)
        · exact he
        · exact absurd hT hcon
      · intro he
        exact Or.inl ⟨hT, he⟩
    · rw [if_neg hc]
      have hF : ¬IsRootOf uf c L := fun h => hc (IsRootOf_unique uf c rc L hrc h)
      constructor
      · rintro (⟨hcon, -⟩ | ⟨-, hs⟩)
        · exact absurd hcon hF
        · exact IsRootOf_unique uf c s rc hs hrc
      · intro he
        exact Or.inr ⟨hF, he.symm ▸ hrc⟩
  have hchar_a := hcompute a ra ha hra
  have hchar_b := hcompute b rb hb hrb
  have hmain : sameSet ufL a b ↔
      (if ra = L then W else ra) = (if rb = L then W else rb) := by
    constructor
    · rintro ⟨r, hr1, hr2⟩
      rw [← (hchar_a r).1 hr1, ← (hchar_b r).1 hr2]
    · intro he
      exact ⟨(if ra = L then W else ra), (hchar_a _).2 rfl, (hchar_b _).2 he⟩
  rw [hmain, sameSet_iff_root_eq uf a b ra rb hra hrb,
    sameSet_iff_root_eq uf a x ra rx hra hrx,
    sameSet_iff_root_eq uf y b ry rb hry hrb,
    sameSet_iff_root_eq uf a y ra ry hra hry,
    sameSet_iff_root_eq uf x b rx rb hrx hrb]
  rcases hLW with ⟨rfl, rfl⟩ | ⟨rfl, rfl⟩ <;> split_ifs <;> omega

theorem stepUF_parent_congr (uf1 uf2 : UF) (h : uf1.parent = uf2.parent) (x : ℕ) :
    stepUF uf1 x = stepUF uf2 x := by
  rw [stepUF, stepUF, h]

theorem iterUF_parent_congr (uf1 uf2 : UF) (h : uf1.parent = uf2.parent) (k x : ℕ) :
    iterUF uf1 k x = iterUF uf2 k x := by
  induction k generalizing x with
  | zero => rfl
  | succ k ih =>
    rw [iterUF, iterUF, stepUF_parent_congr uf1 uf2 h x]
    exact ih (stepUF uf2 x)

theorem isRoot_parent_congr (uf1 uf2 : UF) (h : uf1.parent = uf2.parent) (z : ℕ) :
    isRoot uf1 z ↔ isRoot uf2 z := by
  rw [isRoot, isRoot, h]

theorem IsRootOf_parent_congr (uf1 uf2 : UF) (h : uf1.parent = uf2.parent) (z s : ℕ) :
    IsRootOf uf1 z s ↔ IsRootOf uf2 z s := by
  rw [IsRootOf, IsRootOf, isRoot_parent_congr uf1 uf2 h]
  constructor
  · rintro ⟨hr, k, hk⟩
    exact ⟨hr, k, by rw [← iterUF_parent_congr uf1 uf2 h]; exact hk⟩
  · rintro ⟨hr, k, hk⟩
    exact ⟨hr, k, by rw [iterUF_parent_congr uf1 uf2 h]; exact hk⟩

theorem incRank_parent (uf : UF) (i : ℕ) : (incRank uf (some i)).parent = uf.parent := rfl

theorem incRank_WF (n : ℕ) (uf : UF) (i : ℕ) (hwf : WF n uf) :
    WF n (incRank uf (some i)) := by
  refine ⟨hwf.plen, ?_, hwf.inRange, hwf.acyc⟩
  show (uf.rank.set i _).length = n
  rw [List.length_set, hwf.rlen]

theorem ufInit_jget (n i : ℕ) (hi : i < n) :
    jget (ufInit n).parent (some i) = some i := by
  rw [ufInit, jget]
  show (((List.range n).map some).get? i).join = some i
  rw [List.get?_map, List.get?_range hi]
  rfl

theorem ufInit_WF (n : ℕ) : WF n (ufInit n) := by
  refine ⟨?_, ?_, ?_, ⟨fun _ => 0, ?_⟩⟩
  · rw [ufInit]
    show ((List.range n).map some).length = n
    rw [List.length_map, List.length_range]
  · rw [ufInit]
    show (List.replicate n 0).length = n
    rw [List.length_replicate]
  · intro i hi
    exact ⟨i, hi, ufInit_jget n i hi⟩
  · intro i j hi hget hne
    rw [ufInit_jget n i hi] at hget
    exact absurd (Option.some_injective _ hget).symm hne

theorem ufInit_isRoot (n i : ℕ) (hi : i < n) : isRoot (ufInit n) i :=
  ufInit_jget n i hi

theorem ufInit_sameSet (n a b : ℕ) (ha : a < n) (hb : b < n) :
    sameSet (ufInit n) a b ↔ a = b := by
  rw [sameSet_iff_root_eq (ufInit n) a b a b
    (IsRootOf_of_isRoot (ufInit n) a (ufInit_isRoot n a ha))
    (IsRootOf_of_isRoot (ufInit n) b (ufInit_isRoot n b hb))]

theorem ufInit_rootCount (n : ℕ) : rootCount n (ufInit n) = n := by
  rw [rootCount, Finset.filter_true_of_mem, Finset.card_range]
  intro i hi
  exact ufInit_isRoot n i (Finset.mem_range.1 hi)

/-- Full behaviour of `union` on a well-formed state with in-range
arguments: it returns `true` exactly when the two trees were distinct; a
no-op `union` leaves rank, roots and partition intact (up to path
compression of the two `find`s); a merging `union` joins exactly the two
trees, decrementing the number of trees. -/
theorem union_spec (n : ℕ) (uf : UF) (x y : ℕ) (hwf : WF n uf)
    (hx : x < n) (hy : y < n) :
    WF n (union uf x y).2 ∧
    ((union uf x y).1 = true ↔ ¬sameSet uf x y) ∧
    (sameSet uf x y →
      (union uf x y).2.rank = uf.rank ∧
      (∀ z, z < n → (isRoot (union uf x y).2 z ↔ isRoot uf z)) ∧
      (∀ z s, z < n → (IsRootOf (union uf x y).2 z s ↔ IsRootOf uf z s))) ∧
    (¬sameSet uf x y →
      sameSet (union uf x y).2 x y ∧
      rootCount n (union uf x y).2 = rootCount n uf - 1 ∧
      2 ≤ rootCount n uf ∧
      (∀ a b, a < n → b < n → (sameSet (union uf x y).2 a b ↔
        sameSet uf a b ∨ (sameSet uf a x ∧ sameSet uf y b) ∨
        (sameSet uf a y ∧ sameSet uf x b)))) := by
  obtain ⟨rx, ufa, hfx, hrx, hwfa, hranka, hisra, hrofa⟩ := find_spec n uf x hwf hx
  obtain ⟨ry, ufb, hfy, hryA, hwfb, hrankb, hisrb, hrofb⟩ := find_spec n ufa y hwfa hy
  have hry : IsRootOf uf y ry := (hrofa y ry hy).1 hryA
  have hrxn : rx < n := IsRootOf_lt n uf hwf x rx hx hrx
  have hryn : ry < n := IsRootOf_lt n uf hwf y ry hy hry
  have hufb_rof : ∀ z s, z < n → (IsRootOf ufb z s ↔ IsRootOf uf z s) := by
    intro z s hz
    rw [hrofb z s hz, hrofa z s hz]
  have hufb_isr : ∀ z, z < n → (isRoot ufb z ↔ isRoot uf z) := by
    intro z hz
    rw [hisrb z hz, hisra z hz]
  have hufb_rank : ufb.rank = uf.rank := by rw [hrankb, hranka]
  have hufb_count : rootCount n ufb = rootCount n uf := rootCount_congr n ufb uf hufb_isr
  have hcase : rx = ry ↔ sameSet uf x y := (sameSet_iff_root_eq uf x y rx ry hrx hry).symm
  have hun : union uf x y =
      (if (some rx : Option ℕ) = some ry then (false, ufb)
       else if jlt (getRank ufb (some rx)) (getRank ufb (some ry)) then
         (true, setP ufb (some rx) (some ry))
       else if jlt (getRank ufb (some ry)) (getRank ufb (some rx)) then
         (true, setP ufb (some ry) (some rx))
       else (true, incRank (setP ufb (some ry) (some rx)) (some rx))) := by
    simp only [union, hfx, hfy]
  by_cases hxy : sameSet uf x y
  · have hrxy : rx = ry := hcase.2 hxy
    rw [hun, if_pos (by rw [hrxy])]
    refine ⟨hwfb, ?_, fun _ => ⟨hufb_rank, hufb_isr, hufb_rof⟩, fun hcon => absurd hxy hcon⟩
    simp only [Bool.false_eq_true, false_iff, not_not]
    exact hxy
  · have hrxy : rx ≠ ry := fun he => hxy (hcase.1 he)
    have hsne : ¬((some rx : Option ℕ) = some ry) :=
      fun h => hrxy (Option.some_injective _ h)
    rw [hun, if_neg hsne]
    have hrootx : isRoot ufb rx := (hufb_isr rx hrxn).2 hrx.1
    have hrooty : isRoot ufb ry := (hufb_isr ry hryn).2 hry.1
    have hbuild : ∀ uf3 L W, (L = rx ∧ W = ry) ∨ (L = ry ∧ W = rx) →
        uf3.parent = (setP ufb (some L) (some W)).parent →
        uf3.rank.length = n →
        WF n uf3 ∧
        sameSet uf3 x y ∧
        rootCount n uf3 = rootCount n uf - 1 ∧
        (∀ a b, a < n → b < n → (sameSet uf3 a b ↔
          sameSet uf a b ∨ (sameSet uf a x ∧ sameSet uf y b) ∨
          (sameSet uf a y ∧ sameSet uf x b))) := by
      intro uf3 L W hLW hpar hrlen
      have hLroot : isRoot ufb L := by
        rcases hLW with ⟨rfl, -⟩ | ⟨rfl, -⟩
        · exact hrootx
        · exact hrooty
      have hWroot : isRoot ufb W := by
        rcases hLW with ⟨-, rfl⟩ | ⟨-, rfl⟩
        · exact hrooty
        · exact hrootx
      have hLn : L < n := by
        rcases hLW with ⟨rfl, -⟩ | ⟨rfl, -⟩
        · exact hrxn
        · exact hryn
      have hWn : W < n := by
        rcases hLW with ⟨-, rfl⟩ | ⟨-, rfl⟩
        · exact hryn
        · exact hrxn
      have hLWne : L ≠ W := by
        rcases hLW with ⟨rfl, rfl⟩ | ⟨rfl, rfl⟩
        · exact hrxy
        · exact hrxy.symm
      obtain ⟨hwfL, hrankL, hisrL, hrofL⟩ :=
        link_preserve n ufb L W hwfb hLroot hWroot hLn hWn hLWne
      have hwf3 : WF n uf3 := by
        refine ⟨?_, hrlen, ?_, ?_⟩
        · rw [hpar]
          exact hwfL.plen
        · intro i hi
          obtain ⟨j, hj, hget⟩ := hwfL.inRange i hi
          exact ⟨j, hj, by rw [jget, hpar, ← jget]; exact hget⟩
        · obtain ⟨d, hd⟩ := hwfL.acyc
          refine ⟨d, ?_⟩
          intro i j hi hget hne2
          apply hd i j hi _ hne2
          rw [jget, ← hpar, ← jget]
          exact hget
      have hisr3 : ∀ z, z < n → (isRoot uf3 z ↔ isRoot uf z ∧ z ≠ L) := by
        intro z hz
        rw [isRoot_parent_congr uf3 (setP ufb (some L) (some W)) hpar z, hisrL z hz,
          hufb_isr z hz]
      have hrof3 : ∀ z s, z < n → (IsRootOf uf3 z s ↔
          ((IsRootOf uf z L ∧ s = W) ∨ (¬IsRootOf uf z L ∧ IsRootOf uf z s))) := by
        intro z s hz
        rw [IsRootOf_parent_congr uf3 (setP ufb (some L) (some W)) hpar z s,
          hrofL z s hz, hufb_rof z L hz, hufb_rof z s hz]
      have hmerge := link_merge n uf uf3 x y rx ry L W hwf hx hy hrx hry hrxy hLW hrof3
      refine ⟨hwf3, ?_, ?_, hmerge⟩
      · rw [hmerge x y hx hy]
        exact Or.inr (Or.inl ⟨sameSet_refl uf x rx hrx, sameSet_refl uf y ry hry⟩)
      · rw [← hufb_count]
        refine rootCount_erase n uf3 ufb L hLroot hLn ?_
        intro z hz
        rw [isRoot_parent_congr uf3 (setP ufb (some L) (some W)) hpar z, hisrL z hz]
    have h2 : 2 ≤ rootCount n uf :=
      rootCount_two n uf rx ry hrx.1 hry.1 hrxn hryn hrxy
    have hrlen1 : (setP ufb (some rx) (some ry)).rank.length = n := hwfb.rlen
    have hrlen2 : (setP ufb (some ry) (some rx)).rank.length = n := hwfb.rlen
    have hrlen3 : ∀ v : ℕ,
        ((setP ufb (some ry) (some rx)).rank.set rx v).length = n := by
      intro v
      show (ufb.rank.set rx v).length = n
      rw [List.length_set, hwfb.rlen]
    by_cases hb1 : jlt (getRank ufb (some rx)) (getRank ufb (some ry)) = true
    · rw [if_pos hb1]
      obtain ⟨hwf3, hss, hcount, hmerge⟩ :=
        hbuild (setP ufb (some rx) (some ry)) rx ry (Or.inl ⟨rfl, rfl⟩) rfl hrlen1
      exact ⟨hwf3, by simp [hxy], fun hcon => absurd hcon hxy, fun _ =>
        ⟨hss, hcount, h2, hmerge⟩⟩
    · rw [if_neg (by simpa using hb1)]
      by_cases hb2 : jlt (getRank ufb (some ry)) (getRank ufb (some rx)) = true
      · rw [if_pos hb2]
        obtain ⟨hwf3, hss, hcount, hmerge⟩ :=
          hbuild (setP ufb (some ry) (some rx)) ry rx (Or.inr ⟨rfl, rfl⟩) rfl hrlen2
        exact ⟨hwf3, by simp [hxy], fun hcon => absurd hcon hxy, fun _ =>
          ⟨hss, hcount, h2, hmerge⟩⟩
      · rw [if_neg (by simpa using hb2)]
        obtain ⟨hwf3, hss, hcount, hmerge⟩ :=
          hbuild (incRank (setP ufb (some ry) (some rx)) (some rx)) ry rx
            (Or.inr ⟨rfl, rfl⟩) rfl (hrlen3 _)
        exact ⟨hwf3, by simp [hxy], fun hcon => absurd hcon hxy, fun _ =>
          ⟨hss, hcount, h2, hmerge⟩⟩

theorem adjIn_symm (l : List Edge) (a b : ℕ) (h : adjIn l a b) : adjIn l b a := by
  obtain ⟨e, he, hor⟩ := h
  exact ⟨e, he, hor.symm⟩

theorem joined_refl (l : List Edge) (a : ℕ) : Joined l a a :=
  Relation.ReflTransGen.refl

theorem joined_symm (l : List Edge) (a b : ℕ) (h : Joined l a b) : Joined l b a :=
  Relation.ReflTransGen.symmetric (fun _ _ hadj => adjIn_symm l _ _ hadj) h

theorem joined_trans (l : List Edge) (a b c : ℕ) (h1 : Joined l a b)
    (h2 : Joined l b c) : Joined l a c :=
  Relation.ReflTransGen.trans h1 h2

theorem joined_mono (l1 l2 : List Edge) (hsub : ∀ e, e ∈ l1 → e ∈ l2) (a b : ℕ)
    (h : Joined l1 a b) : Joined l2 a b := by
  refine Relation.ReflTransGen.mono ?_ h
  rintro u v ⟨e, he, hor⟩
  exact ⟨e, hsub e he, hor⟩

theorem joined_nil (a b : ℕ) (h : Joined [] a b) : a = b := by
  induction h with
  | refl => rfl
  | tail h1 h2 ih =>
    obtain ⟨e, he, -⟩ := h2
    exact absurd he (List.not_mem_nil e)

theorem joined_of_mem (l : List Edge) (e : Edge) (he : e ∈ l) :
    Joined l e.v1 e.v2 :=
  Relation.ReflTransGen.single ⟨e, he, Or.inl ⟨rfl, rfl⟩⟩

/-- Characterisation of connectivity after adding one edge at the front:
a walk either avoids the new edge or crosses it (in one of the two
directions, once suffices by transitivity). -/
theorem joined_cons (e : Edge) (l : List Edge) (a b : ℕ) :
    Joined (e :: l) a b ↔ Joined l a b ∨ (Joined l a e.v1 ∧ Joined l e.v2 b) ∨
      (Joined l a e.v2 ∧ Joined l e.v1 b) := by
  constructor
  · intro h
    induction h with
    | refl => exact Or.inl (joined_refl l a)
    | @tail c b2 h1 h2 ih =>
      obtain ⟨f, hf, hor⟩ := h2
      rcases List.mem_cons.1 hf with rfl | hfl
      · rcases hor with ⟨h3, h4⟩ | ⟨h3, h4⟩
        · subst h3
          subst h4
          rcases ih with hab | ⟨h5, h6⟩ | ⟨h5, h6⟩
          · exact Or.inr (Or.inl ⟨hab, joined_refl l _⟩)
          · exact Or.inr (Or.inl ⟨h5, joined_refl l _⟩)
          · exact Or.inl h5
        · subst h3
          subst h4
          rcases ih with hab | ⟨h5, h6⟩ | ⟨h5, h6⟩
          · exact Or.inr (Or.inr ⟨hab, joined_refl l _⟩)
          · exact Or.inl h5
          · exact Or.inr (Or.inr ⟨h5, joined_refl l _⟩)
      · have hstep : adjIn l c b2 := ⟨f, hfl, hor⟩
        rcases ih with hab | ⟨h5, h6⟩ | ⟨h5, h6⟩
        · exact Or.inl (hab.tail hstep)
        · exact Or.inr (Or.inl ⟨h5, h6.tail hstep⟩)
        · exact Or.inr (Or.inr ⟨h5, h6.tail hstep⟩)
  · have hsub : ∀ f, f ∈ l → f ∈ e :: l := fun f hf => List.mem_cons_of_mem e hf
    have hedge : Joined (e :: l) e.v1 e.v2 :=
      joined_of_mem (e :: l) e (List.mem_cons_self e l)
    rintro (h | ⟨h1, h2⟩ | ⟨h1, h2⟩)
    · exact joined_mono l (e :: l) hsub a b h
    · exact ((joined_mono l (e :: l) hsub a e.v1 h1).trans hedge).trans
        (joined_mono l (e :: l) hsub e.v2 b h2)
    · exact ((joined_mono l (e :: l) hsub a e.v2 h1).trans
        (joined_symm (e :: l) e.v1 e.v2 hedge)).trans
        (joined_mono l (e :: l) hsub e.v1 b h2)

theorem joined_congr (l1 l2 : List Edge) (h : ∀ e, e ∈ l1 ↔ e ∈ l2) (a b : ℕ) :
    Joined l1 a b ↔ Joined l2 a b :=
  ⟨joined_mono l1 l2 (fun e he => (h e).1 he) a b,
   joined_mono l2 l1 (fun e he => (h e).2 he) a b⟩

/-- An edge between already-connected endpoints does not change
connectivity. -/
theorem joined_redundant (e : Edge) (l : List Edge) (hj : Joined l e.v1 e.v2)
    (a b : ℕ) : Joined (e :: l) a b ↔ Joined l a b := by
  rw [joined_cons]
  constructor
  · rintro (h | ⟨h1, h2⟩ | ⟨h1, h2⟩)
    · exact h
    · exact (h1.trans hj).trans h2
    · exact (h1.trans (joined_symm l e.v1 e.v2 hj)).trans h2
  · exact Or.inl

theorem mem_sortEdges (l : List Edge) (e : Edge) : e ∈ sortEdges l ↔ e ∈ l :=
  (sortEdges_perm l).mem_iff

theorem connected_congr (n : ℕ) (l1 l2 : List Edge) (h : ∀ f, f ∈ l1 ↔ f ∈ l2) :
    connectedGraph n l1 ↔ connectedGraph n l2 := by
  unfold connectedGraph
  constructor <;> intro hall a b ha hb
  · exact (joined_congr l1 l2 h a b).1 (hall a b ha hb)
  · exact (joined_congr l1 l2 h a b).2 (hall a b ha hb)

/-- Invariant of the Kruskal selection loop: walking the remaining list
`l` with `k` edges already kept, a forest whose partition matches
connectivity over the already-processed edges `P`, and `k` plus the
number of trees equal to `n`, the loop keeps at most `n - 1 - k` more
edges, and tops up to exactly `n - 1` precisely when the processed plus
remaining edges connect all of `0, …, n-1`. -/
theorem kruskal_invariant (n : ℕ) (hn : 2 ≤ n) :
    ∀ (l : List Edge) (uf : UF) (k : ℕ) (P : List Edge),
      WF n uf →
      (∀ e ∈ l, e.v1 < n ∧ e.v2 < n) →
      (∀ a b, a < n → b < n → (sameSet uf a b ↔ Joined P a b)) →
      k + rootCount n uf = n →
      (k + (kruskalAux n l uf k).length ≤ n - 1) ∧
      ((k + (kruskalAux n l uf k).length = n - 1) ↔ connectedGraph n (P ++ l)) := by
  intro l
  induction l with
  | nil =>
    intro uf k P hwf hends hinv hcount
    rw [kruskalAux]
    have hpos : 1 ≤ rootCount n uf := rootCount_pos n uf hwf (by omega)
    simp only [List.length_nil, Nat.add_zero, List.append_nil]
    constructor
    · omega
    · have h1 : k = n - 1 ↔ rootCount n uf = 1 := by omega
      rw [h1, rootCount_one_iff n uf hwf (by omega)]
      constructor
      · intro hall a b ha hb
        exact (hinv a b ha hb).1 (hall a b ha hb)
      · intro hall a b ha hb
        exact (hinv a b ha hb).2 (hall a b ha hb)
  | cons e rest ih =>
    intro uf k P hwf hends hinv hcount
    obtain ⟨hv1, hv2⟩ := hends e (List.mem_cons_self e rest)
    have hends' : ∀ f ∈ rest, f.v1 < n ∧ f.v2 < n :=
      fun f hf => hends f (List.mem_cons_of_mem e hf)
    obtain ⟨r1, ufa, hf1, hr1, hwfa, -, hisra, hrofa⟩ := find_spec n uf e.v1 hwf hv1
    obtain ⟨r2, ufb, hf2, hr2A, hwfb, -, hisrb, hrofb⟩ := find_spec n ufa e.v2 hwfa hv2
    have hr2 : IsRootOf uf e.v2 r2 := (hrofa e.v2 r2 hv2).1 hr2A
    have hufb_rof : ∀ z s, z < n → (IsRootOf ufb z s ↔ IsRootOf uf z s) :=
      fun z s hz => by rw [hrofb z s hz, hrofa z s hz]
    have hufb_ss : ∀ a b, a < n → b < n → (sameSet ufb a b ↔ sameSet uf a b) := by
      intro a b ha hb
      constructor
      · rintro ⟨r, hra, hrb⟩
        exact ⟨r, (hufb_rof a r ha).1 hra, (hufb_rof b r hb).1 hrb⟩
      · rintro ⟨r, hra, hrb⟩
        exact ⟨r, (hufb_rof a r ha).2 hra, (hufb_rof b r hb).2 hrb⟩
    have hufb_isr : ∀ z, z < n → (isRoot ufb z ↔ isRoot uf z) :=
      fun z hz => by rw [hisrb z hz, hisra z hz]
    have hufb_count : rootCount n ufb = rootCount n uf :=
      rootCount_congr n ufb uf hufb_isr
    have hinv_b : ∀ a b, a < n → b < n → (sameSet ufb a b ↔ Joined P a b) := by
      intro a b ha hb
      rw [hufb_ss a b ha hb]
      exact hinv a b ha hb
    have hcase : r1 = r2 ↔ sameSet uf e.v1 e.v2 :=
      (sameSet_iff_root_eq uf e.v1 e.v2 r1 r2 hr1 hr2).symm
    have hcongr1 : ∀ a b, Joined (P ++ e :: rest) a b ↔ Joined (e :: (P ++ rest)) a b := by
      intro a b
      apply joined_congr
      intro f
      simp only [List.mem_append, List.mem_cons]
      tauto
    by_cases heq : r1 = r2
    · have hss : sameSet uf e.v1 e.v2 := hcase.1 heq
      have hjoined : Joined P e.v1 e.v2 := (hinv e.v1 e.v2 hv1 hv2).1 hss
      have heval : kruskalAux n (e :: rest) uf k = kruskalAux n rest ufb k := by
        simp only [kruskalAux, hf1, hf2]
        rw [if_neg (by simp [heq])]
      rw [heval]
      obtain ⟨hle, hiff⟩ := ih ufb k P hwfb hends' hinv_b
        (by rw [hufb_count]; exact hcount)
      refine ⟨hle, ?_⟩
      rw [hiff]
      have hjext : Joined (P ++ rest) e.v1 e.v2 :=
        joined_mono P (P ++ rest) (fun f hf => List.mem_append_left rest hf)
          e.v1 e.v2 hjoined
      have hred : ∀ a b, Joined (P ++ e :: rest) a b ↔ Joined (P ++ rest) a b := by
        intro a b
        rw [hcongr1 a b, joined_redundant e (P ++ rest) hjext a b]
      unfold connectedGraph
      constructor <;> intro hall a b ha hb
      · exact (hred a b).2 (hall a b ha hb)
      · exact (hred a b).1 (hall a b ha hb)
    · have hnss_uf : ¬sameSet uf e.v1 e.v2 := fun h => heq (hcase.2 h)
      have hnss : ¬sameSet ufb e.v1 e.v2 :=
        fun h => hnss_uf ((hufb_ss e.v1 e.v2 hv1 hv2).1 h)
      obtain ⟨hwf3, -, -, hmerged⟩ := union_spec n ufb e.v1 e.v2 hwfb hv1 hv2
      obtain ⟨hss3, hcount3, h2roots, hmerge⟩ := hmerged hnss
      have hinv3 : ∀ a b, a < n → b < n →
          (sameSet (union ufb e.v1 e.v2).2 a b ↔ Joined (e :: P) a b) := by
        intro a b ha hb
        rw [hmerge a b ha hb, joined_cons e P a b,
          hufb_ss a b ha hb, hinv a b ha hb, hufb_ss a e.v1 ha hv1,
          hinv a e.v1 ha hv1, hufb_ss e.v2 b hv2 hb, hinv e.v2 b hv2 hb,
          hufb_ss a e.v2 ha hv2, hinv a e.v2 ha hv2, hufb_ss e.v1 b hv1 hb,
          hinv e.v1 b hv1 hb]
      have hcount3' : (k + 1) + rootCount n (union ufb e.v1 e.v2).2 = n := by
        rw [hcount3, hufb_count]
        have hpos2 : 2 ≤ rootCount n uf := by rw [← hufb_count]; exact h2roots
        omega
      have heval : kruskalAux n (e :: rest) uf k =
          (if k + 1 = n - 1 then [e]
           else e :: kruskalAux n rest (union ufb e.v1 e.v2).2 (k + 1)) := by
        simp only [kruskalAux, hf1, hf2]
        rw [if_pos (by simp [heq])]
      rw [heval]
      by_cases hk : k + 1 = n - 1
      · rw [if_pos hk]
        refine ⟨by simp [List.length_singleton]; omega, ?_⟩
        have hone : rootCount n (union ufb e.v1 e.v2).2 = 1 := by omega
        have hall3 := (rootCount_one_iff n (union ufb e.v1 e.v2).2 hwf3
          (by omega)).1 hone
        have hconn : connectedGraph n (P ++ e :: rest) := by
          intro a b ha hb
          have hj : Joined (e :: P) a b := (hinv3 a b ha hb).1 (hall3 a b ha hb)
          refine joined_mono (e :: P) (P ++ e :: rest) ?_ a b hj
          intro f hf
          simp only [List.mem_cons, List.mem_append] at hf ⊢
          tauto
        simp only [List.length_singleton]
        exact ⟨fun _ => hconn, fun _ => hk⟩
      · rw [if_neg hk]
        obtain ⟨hle, hiff⟩ := ih (union ufb e.v1 e.v2).2 (k + 1) (e :: P)
          hwf3 hends' hinv3 hcount3'
        constructor
        · simp only [List.length_cons]
          omega
        · simp only [List.length_cons]
          have harith : k + ((kruskalAux n rest (union ufb e.v1 e.v2).2 (k + 1)).length + 1) =
              n - 1 ↔
              (k + 1) + (kruskalAux n rest (union ufb e.v1 e.v2).2 (k + 1)).length =
              n - 1 := by omega
          rw [harith, hiff]
          apply connected_congr
          intro f
          simp only [List.mem_cons, List.mem_append]
          tauto

/-- C9: the MST result never holds more than `n - 1` edges, holds exactly
`n - 1` precisely when the stored edges connect all `n` vertices, and is
empty for `n < 2`. The hypothesis restricts to edge lists whose endpoints
are valid vertex identifiers, which `addEdge` guarantees for every stored
edge. -/
theorem findMST_forest_size (g : Graph)
    (h : ∀ e ∈ g.edges, e.v1 < g.vertices.length ∧ e.v2 < g.vertices.length) :
    (findMST g).length ≤ g.vertices.length - 1 ∧
    ((findMST g).length = g.vertices.length - 1 ↔
      connectedGraph g.vertices.length g.edges) ∧
    (g.vertices.length < 2 → findMST g = []) := by
  by_cases hn : g.vertices.length < 2
  · rw [findMST, if_pos hn]
    refine ⟨by simp, ?_, fun _ => rfl⟩
    constructor
    · intro _ a b ha hb
      have hab : a = b := by omega
      subst hab
      exact joined_refl g.edges a
    · intro _
      simp only [List.length_nil]
      omega
  · push_neg at hn
    rw [findMST, if_neg (by omega)]
    have hends : ∀ e ∈ sortEdges g.edges,
        e.v1 < g.vertices.length ∧ e.v2 < g.vertices.length := by
      intro e he
      exact h e ((mem_sortEdges g.edges e).1 he)
    have hinv0 : ∀ a b, a < g.vertices.length → b < g.vertices.length →
        (sameSet (ufInit g.vertices.length) a b ↔ Joined [] a b) := by
      intro a b ha hb
      rw [ufInit_sameSet g.vertices.length a b ha hb]
      constructor
      · rintro rfl
        exact joined_refl [] a
      · exact joined_nil a b
    obtain ⟨hle, hiff⟩ := kruskal_invariant g.vertices.length hn
      (sortEdges g.edges) (ufInit g.vertices.length) 0 []
      (ufInit_WF g.vertices.length) hends hinv0
      (by rw [ufInit_rootCount, Nat.zero_add])
    rw [Nat.zero_add] at hle hiff
    refine ⟨hle, ?_, fun hcon => absurd hcon (by omega)⟩
    rw [hiff, List.nil_append]
    exact connected_congr g.vertices.length (sortEdges g.edges) g.edges
      (mem_sortEdges g.edges)

/-- Witness for C9 on the concrete triangle: three vertices, three edges,
the hypothesis holds, the MST has the maximal forest size 2 = n - 1, and
the graph is connected. -/
theorem findMST_forest_size_witness :
    let g : Graph := ⟨[⟨0, 0⟩, ⟨10, 0⟩, ⟨10, 10⟩],
      [⟨0, 1, 10⟩, ⟨1, 2, 10⟩, ⟨0, 2, 14⟩]⟩
    (∀ e ∈ g.edges, e.v1 < g.vertices.length ∧ e.v2 < g.vertices.length) ∧
    (findMST g).length ≤ g.vertices.length - 1 ∧
    ((findMST g).length = g.vertices.length - 1 ↔
      connectedGraph g.vertices.length g.edges) := by
  intro g
  have h := findMST_forest_size g (by with_unfolding_all decide)
  exact ⟨by with_unfolding_all decide, h.1, h.2.1⟩

/-- Amended C6: an out-of-range `find` argument is not rejected — the
lookup `parent[x]` yields `undefined`, the recursion bottoms out on
`undefined`, and `find` silently returns `undefined` while extending the
parent array with a hole at `x`. No error or assertion is raised (JS
array indexing cannot throw here), and the index is not clamped. -/
theorem find_oob_silent (n x : ℕ) (h : n ≤ x) :
    find (ufInit n) (some x) =
      (none, ⟨(List.range n).map some ++ List.replicate (x - n) none ++ [none],
        List.replicate n 0⟩) := by
  have hplen : (ufInit n).parent.length = n := (ufInit_WF n).plen
  have hget : jget (ufInit n).parent (some x) = none := by
    rw [jget]
    have hnone : (ufInit n).parent.get? x = none :=
      List.get?_eq_none.2 (by rw [hplen]; omega)
    rw [hnone]
    rfl
  have hinner : findAux n (ufInit n) none = (none, ufInit n) := by
    cases n with
    | zero => rfl
    | succ m =>
      rw [findAux]
      simp [jget]
  rw [find, hplen, findAux]
  simp only [hget]
  rw [if_neg (by simp), hinner]
  simp only [setP, jset, hplen]
  rw [if_neg (by omega)]
  rfl

/-- Witness for the amended C6 at `n = 1`, `x = 5`. -/
theorem find_oob_silent_witness :
    1 ≤ 5 ∧ find (ufInit 1) (some 5) =
      (none, ⟨(List.range 1).map some ++ List.replicate (5 - 1) none ++ [none],
        List.replicate 1 0⟩) :=
  ⟨by decide, find_oob_silent 1 5 (by decide)⟩

/-- Counterexample to C6 as stated: `find` on index 5 of a 1-element
forest returns the normal value `undefined` (no error, no assertion, no
clamping) and corrupts the parent array with holes, and `union` on the
same out-of-range index even returns the normal "merged" result `true`
while overwriting `parent[0]` with `undefined`. -/
theorem uf_oob_counterexample :
    find (ufInit 1) (some 5) =
      (none, ⟨[some 0, none, none, none, none, none], [0]⟩) ∧
    union (ufInit 1) 5 0 =
      (true, ⟨[none, none, none, none, none, none], [0]⟩) := by
  with_unfolding_all decide

/-- Amended C7: on a well-formed state, after `union(a, b)` returns
"merged" (`true`), `find(a)` and `find(b)` (run in sequence) return the
same root; a second `union(a, b)` returns "no-op" (`false`) and leaves
the rank array and the partition — every element's root — unchanged,
though its internal `find`s may still rewrite parent entries by path
compression. -/
theorem union_merge_then_noop (n : ℕ) (uf : UF) (a b : ℕ) (hwf : WF n uf)
    (ha : a < n) (hb : b < n) (htrue : (union uf a b).1 = true) :
    (find (union uf a b).2 (some a)).1 =
      (find (find (union uf a b).2 (some a)).2 (some b)).1 ∧
    (union (union uf a b).2 a b).1 = false ∧
    (union (union uf a b).2 a b).2.rank = (union uf a b).2.rank ∧
    (∀ z s, z < n → (IsRootOf (union (union uf a b).2 a b).2 z s ↔
      IsRootOf (union uf a b).2 z s)) := by
  obtain ⟨hwf1, hbool, -, hmerged⟩ := union_spec n uf a b hwf ha hb
  have hnss : ¬sameSet uf a b := hbool.1 htrue
  obtain ⟨hss1, -, -, -⟩ := hmerged hnss
  obtain ⟨r1, ufa, hf1, hr1, hwfa, -, -, hrofa⟩ := find_spec n (union uf a b).2 a hwf1 ha
  obtain ⟨r2, ufb, hf2, hr2A, -, -, -, -⟩ := find_spec n ufa b hwfa hb
  have hr2 : IsRootOf (union uf a b).2 b r2 := (hrofa b r2 hb).1 hr2A
  have hreq : r1 = r2 := by
    obtain ⟨r, hra, hrb⟩ := hss1
    rw [IsRootOf_unique (union uf a b).2 a r1 r hr1 hra,
      IsRootOf_unique (union uf a b).2 b r2 r hr2 hrb]
  obtain ⟨-, hbool1, hnoop1, -⟩ := union_spec n (union uf a b).2 a b hwf1 ha hb
  have hfalse : (union (union uf a b).2 a b).1 = false := by
    rcases hres : (union (union uf a b).2 a b).1 with _ | _
    · rfl
    · exact absurd hss1 (hbool1.1 hres)
  obtain ⟨hrank1, -, hrof1⟩ := hnoop1 hss1
  refine ⟨?_, hfalse, hrank1, hrof1⟩
  simp only [hf1, hf2]
  rw [hreq]

/-- Witness for the amended C7: merging 0 and 1 in a fresh 2-element
forest. -/
theorem union_merge_then_noop_witness :
    (union (ufInit 2) 0 1).1 = true ∧
    (find (union (ufInit 2) 0 1).2 (some 0)).1 =
      (find (find (union (ufInit 2) 0 1).2 (some 0)).2 (some 1)).1 ∧
    (union (union (ufInit 2) 0 1).2 0 1).1 = false ∧
    (union (union (ufInit 2) 0 1).2 0 1).2.rank =
      (union (ufInit 2) 0 1).2.rank := by
  have h := union_merge_then_noop 2 (ufInit 2) 0 1 (ufInit_WF 2)
    (by decide) (by decide) (by with_unfolding_all decide)
  exact ⟨by with_unfolding_all decide, h.1, h.2.1, h.2.2.1⟩

/-- Counterexample to C7 as stated: after building a rank-1 tree on
`{0, 1}` and a rank-2 tree on `{2, 3, 4, 5}`, `union(1, 5)` merges them
(returning `true`); the repeated `union(1, 5)` returns `false` as claimed
but does *not* leave the parent array unchanged — its internal `find(1)`
path-compresses `parent[1]` from 0 to the root 2. -/
theorem union_second_mutates :
    (union (union (union (union (union (ufInit 6) 0 1).2 2 3).2 4 5).2 2 4).2 1 5).1
      = true ∧
    (union (union (union (union (union (union (ufInit 6) 0 1).2 2 3).2 4 5).2
      2 4).2 1 5).2 1 5).1 = false ∧
    (union (union (union (union (union (union (ufInit 6) 0 1).2 2 3).2 4 5).2
      2 4).2 1 5).2 1 5).2.parent ≠
      (union (union (union (union (union (ufInit 6) 0 1).2 2 3).2 4 5).2
        2 4).2 1 5).2.parent := by
  with_unfolding_all decide

theorem addVertex_vertices_edges (g : Graph) (x y : ℚ) :
    (addVertex g x y).2.edges = g.edges := by
  rw [addVertex]
  split_ifs <;> rfl

theorem addEdge_keeps_vertices (g : Graph) (a b : ℤ) :
    (addEdge g a b).2.vertices = g.vertices := by
  rcases hb : (addEdge g a b).1 with _ | _
  · rw [(addEdge_spec g a b).1 hb]
  · obtain ⟨hval, hdup⟩ := (addEdge_spec g a b).2.1.1 hb
    obtain ⟨vx1, vx2, -, -, heq⟩ := (addEdge_spec g a b).2.2 hval hdup
    rw [heq]

/-- Amended C4: along the step relation, any step that changes the edge
set clears the cached MST, and reset clears it; but a step that grows the
vertex set (a successful vertex insertion) RETAINS the cached MST
unchanged — vertex insertion does not invalidate the cache. -/
theorem mst_cache_policy (app : App) (ev : Event) :
    ((step app ev).graph.edges ≠ app.graph.edges → (step app ev).mstEdges = []) ∧
    ((step app ev).graph.vertices.length > app.graph.vertices.length →
      (step app ev).mstEdges = app.mstEdges) ∧
    (ev = Event.resetBtn → (step app ev).mstEdges = []) := by
  cases ev with
  | canvasClick x y =>
    simp only [step, handleCanvasClick]
    cases hm : app.mode with
    | addBuilding =>
      dsimp only
      refine ⟨?_, fun _ => rfl, fun hcon => by cases hcon⟩
      intro hcon
      exact absurd (addVertex_vertices_edges app.graph x y) hcon
    | addConnection =>
      dsimp only
      cases hfc : findClosestVertex app.graph x y with
      | none =>
        dsimp only
        exact ⟨fun hcon => absurd rfl hcon, fun _ => rfl, fun hcon => by cases hcon⟩
      | some vi =>
        dsimp only
        by_cases hsel : app.selectedVertex = some vi
        · rw [if_pos hsel]
          exact ⟨fun hcon => absurd rfl hcon, fun _ => rfl, fun hcon => by cases hcon⟩
        · rw [if_neg hsel]
          cases hsv : app.selectedVertex with
          | none =>
            dsimp only
            exact ⟨fun hcon => absurd rfl hcon, fun _ => rfl, fun hcon => by cases hcon⟩
          | some sv =>
            dsimp only
            by_cases hex : (app.graph.edges.any fun e =>
                decide ((e.v1 = sv ∧ e.v2 = vi) ∨ (e.v1 = vi ∧ e.v2 = sv))) = true
            · rw [if_pos hex]
              exact ⟨fun hcon => absurd rfl hcon, fun _ => rfl, fun hcon => by cases hcon⟩
            · rw [if_neg hex]
              have hvert := addEdge_keeps_vertices app.graph (sv : ℤ) (vi : ℤ)
              cases hres : (addEdge app.graph (sv : ℤ) (vi : ℤ)).1 with
              | false =>
                rw [if_neg Bool.false_ne_true]
                have hunch := (addEdge_spec app.graph (sv : ℤ) (vi : ℤ)).1 hres
                refine ⟨fun hcon => absurd (by rw [hunch]) hcon, fun _ => rfl,
                  fun hcon => by cases hcon⟩
              | true =>
                rw [if_pos rfl]
                refine ⟨fun _ => rfl, ?_, fun hcon => by cases hcon⟩
                intro hcon
                rw [hvert] at hcon
                exact absurd hcon (lt_irrefl _)
  | addBuildingBtn =>
    exact ⟨fun hcon => absurd rfl hcon, fun _ => rfl, fun hcon => by cases hcon⟩
  | addConnectionBtn =>
    simp only [step, clickAddConnection]
    split_ifs
    · exact ⟨fun hcon => absurd rfl hcon, fun _ => rfl, fun hcon => by cases hcon⟩
    · exact ⟨fun hcon => absurd rfl hcon, fun _ => rfl, fun hcon => by cases hcon⟩
  | findMSTBtn =>
    simp only [step, clickFindMST]
    split_ifs
    · exact ⟨fun hcon => absurd rfl hcon, fun _ => rfl, fun hcon => by cases hcon⟩
    · dsimp only
      exact ⟨fun hcon => absurd rfl hcon, fun hcon => absurd hcon (lt_irrefl _),
        fun hcon => by cases hcon⟩
  | resetBtn =>
    refine ⟨fun _ => rfl, ?_, fun _ => rfl⟩
    intro hcon
    simp only [step, clickReset, List.length_nil] at hcon
    omega

/-- Witness for the amended C4: on a fully reachable scenario (two
buildings, one connection, MST computed, then a third building), the
edge-creating click clears the cache and the vertex-inserting click
retains it. -/
theorem mst_cache_policy_witness :
    let a1 := step appInit (Event.canvasClick 100 100)
    let a2 := step a1 (Event.canvasClick 200 100)
    let a3 := step a2 Event.addConnectionBtn
    let a4 := step a3 (Event.canvasClick 100 116)
    let a5 := step a4 (Event.canvasClick 200 116)
    let a6 := step a5 Event.findMSTBtn
    let a7 := step a6 Event.addBuildingBtn
    ((step a4 (Event.canvasClick 200 116)).graph.edges ≠ a4.graph.edges ∧
      (step a4 (Event.canvasClick 200 116)).mstEdges = []) ∧
    ((step a7 (Event.canvasClick 300 100)).graph.vertices.length >
        a7.graph.vertices.length ∧
      (step a7 (Event.canvasClick 300 100)).mstEdges = a7.mstEdges) ∧
    (step a7 Event.resetBtn).mstEdges = [] := by
  refine ⟨⟨by with_unfolding_all decide, ?_⟩, ⟨by with_unfolding_all decide, ?_⟩, ?_⟩
  · exact (mst_cache_policy _ (Event.canvasClick 200 116)).1
      (by with_unfolding_all decide)
  · exact (mst_cache_policy _ (Event.canvasClick 300 100)).2.1
      (by with_unfolding_all decide)
  · exact (mst_cache_policy _ Event.resetBtn).2.2 rfl

/-- Counterexample to C4 as stated: after computing the MST of the
two-building graph (cache `[⟨0,1,100⟩]`), a successful vertex insertion
(a third building far from the others) leaves the cached MST in place —
it is retained, not discarded. -/
theorem mst_cache_counterexample :
    let a1 := step appInit (Event.canvasClick 100 100)
    let a2 := step a1 (Event.canvasClick 200 100)
    let a3 := step a2 Event.addConnectionBtn
    let a4 := step a3 (Event.canvasClick 100 116)
    let a5 := step a4 (Event.canvasClick 200 116)
    let a6 := step a5 Event.findMSTBtn
    let a7 := step a6 Event.addBuildingBtn
    let a8 := step a7 (Event.canvasClick 300 100)
    a6.mstEdges = [⟨0, 1, 100⟩] ∧
    a8.graph.vertices.length = a7.graph.vertices.length + 1 ∧
    a8.mstEdges = [⟨0, 1, 100⟩] := by
  with_unfolding_all decide

end PipelineNet
